import Mathlib

/-!
# Shallow embedding of the IAScrapperCompanyData core

This file embeds the repository's Python modules `scrapper/cleaner.py`,
`scrapper/fetcher.py` and `scrapper/text_utils.py` as executable Lean
definitions and proves properties of them.

Modelling conventions:
* Python `str` is modelled as `String` / `List Char`; slicing, `split`,
  `strip`, `join` are modelled by explicit list functions below.
* Regular-expression steps are modelled by dedicated scanning functions,
  each documented with the regex it implements.
* `\s`, `str.strip()` and `str.isspace()` are modelled by the whitespace
  set `isPySpace` (ASCII whitespace plus NBSP; other rare Unicode space
  code points are outside the scope of every concrete input used here).
* `\d` / `\D` are modelled by ASCII digits (`Char.isDigit`); non-ASCII
  Unicode digits are outside the scope of the inputs considered here.
* Exceptions are modelled with `Option`: a `none` result corresponds to a
  raised exception at that point of the Python code.
-/

namespace Scrapper

/-- Whitespace, as Python's `\s` / `str.strip()` see it on the inputs in
scope: space, tab, newline, carriage return, vertical tab, form feed and
the no-break space U+00A0. -/
def isPySpace (c : Char) : Bool :=
  c = ' ' || c = '\t' || c = '\n' || c = '\r' ||
  c = Char.ofNat 11 || c = Char.ofNat 12 || c = Char.ofNat 160

/-- Python `str.strip()` on a character list: drop whitespace from both ends. -/
def pyStrip (l : List Char) : List Char :=
  ((l.dropWhile isPySpace).reverse.dropWhile isPySpace).reverse

/-- Python `sub in s` (substring containment) on character lists. -/
def listContains (l sub : List Char) : Bool :=
  sub.isPrefixOf l ||
    match l with
    | [] => false
    | _ :: t => listContains t sub

/-! ## `fetcher.py`: `BaseScraper.clean_number` and `BaseScraper.is_valid_phone` -/

/-- `clean_number`: `re.sub(r"\D", "", text)` keeps exactly the digit characters. -/
def clean_number (text : String) : String :=
  String.mk (text.data.filter (fun c => c.isDigit))

/-- Python `len(set(clean)) == 1`: the list is non-empty and all its
characters are equal. -/
def allSameChar : List Char → Bool
  | [] => false
  | h :: t => t.all (fun c => c = h)

/-- `is_valid_phone`, line by line from `fetcher.py`:
digit-only form, reject length outside `[8, 12]`, reject (unreachable)
length `>= 13`, reject length `>= 11` starting with `"16"` or `"17"`,
reject an all-identical digit string. -/
def is_valid_phone (number : String) : Bool :=
  let clean := (clean_number number).data
  if clean.length < 8 || clean.length > 12 then false
  else if 13 ≤ clean.length then false
  else if 11 ≤ clean.length &&
      (List.isPrefixOf ['1', '6'] clean || List.isPrefixOf ['1', '7'] clean) then false
  else if allSameChar clean then false
  else true

/-! ## `cleaner.py`: `BaseCleaner.decode_cloudflare_email`

The Python body is

    try:
        n = int(cfemail[:2], 16)
        return "".join(chr(int(cfemail[i:i+2], 16) ^ n) for i in range(2, len(cfemail), 2))
    except Exception:
        return ""

`int(x, 16)` is modelled by `pyIntHex?` (surrounding whitespace, an
optional sign and underscores between digits are accepted, as in Python;
the `"0x"` prefix of `int` only matters for inputs of length at least 3
and the slices passed here have length at most 2, where both behaviours
coincide).  `chr` is modelled by `pyChr?`; Python's `chr` also accepts
the surrogate range U+D800 to U+DFFF, which `Char` cannot represent; no
theorem below evaluates that range.  `^` on `int` is two's-complement
XOR, modelled by `pyXor`. -/

/-- Value of one hexadecimal digit character. -/
def hexVal? (c : Char) : Option Nat :=
  if '0' ≤ c && c ≤ '9' then some (c.toNat - 48)
  else if 'a' ≤ c && c ≤ 'f' then some (c.toNat - 87)
  else if 'A' ≤ c && c ≤ 'F' then some (c.toNat - 55)
  else none

/-- Digits of a hexadecimal literal after the first digit: further digits,
with single underscores allowed between digits. -/
def goHexDigits : Nat → List Char → Option Nat
  | acc, [] => some acc
  | _, '_' :: [] => none
  | acc, '_' :: c :: rest' =>
    match hexVal? c with
    | none => none
    | some v => goHexDigits (16 * acc + v) rest'
  | acc, c :: rest =>
    match hexVal? c with
    | none => none
    | some v => goHexDigits (16 * acc + v) rest

/-- A non-empty run of hex digits with single underscores between digits. -/
def parseHexDigits? : List Char → Option Nat
  | [] => none
  | c :: rest =>
    match hexVal? c with
    | none => none
    | some v => goHexDigits v rest

/-- The sign-and-digits part of `int(x, 16)`, after whitespace stripping. -/
def pyIntHexCore : List Char → Option Int
  | '+' :: r => (parseHexDigits? r).map (fun v => (v : Int))
  | '-' :: r => (parseHexDigits? r).map (fun v => -(v : Int))
  | r => (parseHexDigits? r).map (fun v => (v : Int))

/-- Python `int(x, 16)`: strip whitespace, optional sign, hex digits. -/
def pyIntHex? (l : List Char) : Option Int :=
  pyIntHexCore (pyStrip l)

/-- Python `^` on arbitrary ints: two's-complement XOR. -/
def pyXor (a b : Int) : Int :=
  if 0 ≤ a then
    if 0 ≤ b then ((a.toNat ^^^ b.toNat : Nat) : Int)
    else -((a.toNat ^^^ (-b - 1).toNat : Nat) : Int) - 1
  else
    if 0 ≤ b then -(((-a - 1).toNat ^^^ b.toNat : Nat) : Int) - 1
    else (((-a - 1).toNat ^^^ (-b - 1).toNat : Nat) : Int)

/-- Python `chr`: valid for code points in `[0, 0x110000)`; the surrogate
range is unrepresentable in `Char` (see the note above). -/
def pyChr? (n : Int) : Option Char :=
  if 0 ≤ n ∧ (n < 0xd800 ∨ (0xe000 ≤ n ∧ n < 0x110000)) then
    some (Char.ofNat n.toNat)
  else none

/-- The generator `chr(int(cfemail[i:i+2], 16) ^ n) for i in range(2, len, 2)`:
consecutive two-character slices (the final slice has length one when the
input length is odd).  `none` models an exception raised inside the
generator. -/
def decodeBody (n : Int) : List Char → Option (List Char)
  | [] => some []
  | [c] =>
    match pyIntHex? [c] with
    | none => none
    | some v =>
      match pyChr? (pyXor v n) with
      | none => none
      | some ch => some [ch]
  | c1 :: c2 :: rest =>
    match pyIntHex? [c1, c2] with
    | none => none
    | some v =>
      match pyChr? (pyXor v n) with
      | none => none
      | some ch => (decodeBody n rest).map (fun cs => ch :: cs)

/-- `decode_cloudflare_email`: any exception in the key parse or the body
decode is caught and yields `""`. -/
def decode_cloudflare_email (cfemail : String) : String :=
  match pyIntHex? (cfemail.data.take 2) with
  | none => ""
  | some n =>
    match decodeBody n (cfemail.data.drop 2) with
    | none => ""
    | some cs => String.mk cs

/-- Modelled from the spec (section 4.1), for the round-trip claim: a hex
digit rendered as a lowercase character. -/
def hexDigitChar (d : Nat) : Char :=
  if d < 10 then Char.ofNat (48 + d) else Char.ofNat (87 + d)

/-- Modelled from the spec (section 4.1): a byte as two lowercase hex digits. -/
def toHexPair (b : Nat) : List Char :=
  [hexDigitChar (b / 16), hexDigitChar (b % 16)]

/-- Modelled from the spec (section 4.1): the obfuscation encoding, "key =
first byte (hex pair); for each subsequent byte pair, XOR with key".  The
repository has no encoder; this definition follows the spec's wording and
is used only to state the round-trip claim C5. -/
def encodeCfemail (key : Nat) (s : List Char) : List Char :=
  toHexPair key ++ (s.map (fun c => toHexPair (c.toNat ^^^ key))).flatten

/-! ## `text_utils.py`: `find_string_in_html`

The digit branch builds the pattern
`"".join(re.escape(ch) + r"\D*" for ch in target_digits)`: each target
digit is followed by `\D*`, including the last one.  Because `\D*` only
matches non-digits and every other pattern atom is a digit, the regex
engine's greedy backtracking is deterministic here: after a digit, `\D*`
consumes the maximal run of non-digits, and the following pattern digit
must match the next input character exactly. -/

/-- One attempt of the digit pattern at the head of `t`: returns the
length of the match.  The empty pattern never arises (the branch is
guarded by a non-empty digit form); it is mapped to `none`. -/
def matchDigitsAt : List Char → List Char → Option Nat
  | [], _ => none
  | [d], t =>
    match t with
    | [] => none
    | c :: rest =>
      if c = d then some (1 + (rest.takeWhile (fun x => !x.isDigit)).length)
      else none
  | d :: d' :: ds, t =>
    match t with
    | [] => none
    | c :: rest =>
      if c = d then
        match matchDigitsAt (d' :: ds)
            (rest.drop (rest.takeWhile (fun x => !x.isDigit)).length) with
        | none => none
        | some n => some (1 + (rest.takeWhile (fun x => !x.isDigit)).length + n)
      else none

/-- `re.finditer` for the digit pattern: leftmost, non-overlapping matches;
scanning resumes after each match.  `fuel` bounds the recursion; it is
instantiated with the text length plus one, which is always sufficient. -/
def scanDigits (digits : List Char) : Nat → Nat → List Char → List (Nat × Nat)
  | 0, _, _ => []
  | _ + 1, _, [] => []
  | fuel + 1, pos, c :: rest =>
    match matchDigitsAt digits (c :: rest) with
    | some n => (pos, pos + n) :: scanDigits digits fuel (pos + n) ((c :: rest).drop n)
    | none => scanDigits digits fuel (pos + 1) rest

/-- Case-insensitive literal prefix test (ASCII folding, as `re.IGNORECASE`
behaves on the ASCII inputs in scope). -/
def ciPrefix : List Char → List Char → Bool
  | [], _ => true
  | _ :: _, [] => false
  | p :: ps, c :: cs => p.toLower = c.toLower && ciPrefix ps cs

/-- `re.finditer` for the escaped-literal branch (case-insensitive). -/
def scanLiteral (pat : List Char) : Nat → Nat → List Char → List (Nat × Nat)
  | 0, _, _ => []
  | _ + 1, _, [] => []
  | fuel + 1, pos, c :: rest =>
    if ciPrefix pat (c :: rest) then
      (pos, pos + pat.length) ::
        scanLiteral pat fuel (pos + pat.length) ((c :: rest).drop pat.length)
    else scanLiteral pat fuel (pos + 1) rest

/-- One locator hit: the dict
`{"source": ..., "match": ..., "start": ..., "end": ..., "snippet": ...}`. -/
structure LocatorHit where
  source : String
  matchStr : String
  startPos : Nat
  endPos : Nat
  snippet : String
  deriving Repr, DecidableEq

/-- Python slice `text[a:b]` (with `0 <= a <= b` already clipped). -/
def pySlice (l : List Char) (a b : Nat) : List Char :=
  (l.drop a).take (b - a)

/-- Build the hit records for the span list found in `text`. -/
def mkHits (text : List Char) (contextChars : Nat) (spans : List (Nat × Nat)) :
    List LocatorHit :=
  spans.map (fun sp =>
    { source := "raw"
      matchStr := String.mk (pySlice text sp.1 sp.2)
      startPos := sp.1
      endPos := sp.2
      snippet := String.mk (pySlice text (sp.1 - contextChars)
        (min text.length (sp.2 + contextChars))) })

/-- `find_string_in_html` from `text_utils.py`.  Only the raw-HTML search
is live in the source (the cleaned-text search is not performed).  The
`try/except re.error` cannot fire for these generated patterns. -/
def find_string_in_html (target html : String) (contextChars : Nat := 50) :
    List LocatorHit :=
  if target.data.isEmpty || html.data.isEmpty then []
  else
    let targetDigits := target.data.filter (fun c => c.isDigit)
    let text := html.data
    if targetDigits.isEmpty then
      mkHits text contextChars
        (scanLiteral target.data (text.length + 1) 0 text)
    else
      mkHits text contextChars
        (scanDigits targetDigits (text.length + 1) 0 text)

/-! ## `fetcher.py`: framework fingerprints (string part of `detect_framework`) -/

/-- Lowercased view of a string, as `html.lower()` (ASCII folding). -/
def pyLower (l : List Char) : List Char :=
  l.map Char.toLower

/-- The regex `<div[^>]+id=["\x27]root["\x27]` at the head of `t`:
after `<div`, at least one character distinct from `>`, then
`id=`, a quote, `root`, a quote (the two quotes are independent). -/
def divRootAfter : Bool → List Char → Bool
  | consumed, t =>
    (consumed && idRootAt t) ||
      match t with
      | [] => false
      | c :: rest => if c ≠ '>' then divRootAfter true rest else false
where
  /-- `id=["\x27]root["\x27]` at the head. -/
  idRootAt (t : List Char) : Bool :=
    match t with
    | 'i' :: 'd' :: '=' :: q :: 'r' :: 'o' :: 'o' :: 't' :: q' :: _ =>
      (q = '"' || q = Char.ofNat 39) && (q' = '"' || q' = Char.ofNat 39)
    | _ => false

/-- `re.search` for the div-root fingerprint over the whole text. -/
def divRootSearch : List Char → Bool
  | [] => false
  | l@(_ :: rest) =>
    (List.isPrefixOf ['<', 'd', 'i', 'v'] l && divRootAfter false (l.drop 4)) ||
      divRootSearch rest

/-- The react branch of `detect_framework` (on the lowercased html). -/
def reactDetected (lower : List Char) : Bool :=
  listContains lower "data-reactroot".data ||
  listContains lower "reactroot".data ||
  listContains lower "__react".data ||
  listContains lower "react-dom".data ||
  divRootSearch lower

/-- The vue branch. -/
def vueDetected (lower : List Char) : Bool :=
  listContains lower "id=\"app\"".data ||
  listContains lower "data-v-".data ||
  listContains lower "vue.js".data ||
  listContains lower "vue.runtime".data

/-- The angular branch. -/
def angularDetected (lower : List Char) : Bool :=
  listContains lower "ng-app".data ||
  listContains lower "ng-version".data ||
  listContains lower "angular.js".data ||
  listContains lower "ng-".data

/-- The nextjs branch. -/
def nextjsDetected (lower : List Char) : Bool :=
  listContains lower "__next".data ||
  listContains lower "/_next/".data ||
  listContains lower "next.config".data

/-! ## HTML documents

`BeautifulSoup(html, "html.parser")` is modelled by a tokenizer plus a
stack tree-builder.  Python's `html.parser` builder lowercases tag and
attribute names, does not synthesize `<html>`/`<body>` wrappers, does not
move content, and does not imply end tags; unmatched end tags are
dropped, and still-open elements are closed at end of input.  Character
entities are out of scope (no concrete input below contains `&` or a
stray `<`). -/

mutual

inductive Node where
  | text (s : List Char)
  | comment (s : List Char)
  | elem (name : List Char) (attrs : List (List Char × List Char)) (children : NodeList)

inductive NodeList where
  | nil
  | cons (head : Node) (tail : NodeList)

end

def NodeList.ofList : List Node → NodeList
  | [] => NodeList.nil
  | n :: t => NodeList.cons n (NodeList.ofList t)

inductive Tok where
  | topen (name : List Char) (attrs : List (List Char × List Char)) (selfClose : Bool)
  | tclose (name : List Char)
  | ttext (s : List Char)
  | tcomment (s : List Char)
  deriving Repr, DecidableEq

def isTagNameChar (c : Char) : Bool := c.isAlphanum

def isAttrNameChar (c : Char) : Bool :=
  !(isPySpace c) && c ≠ '=' && c ≠ '>' && c ≠ '/'

/-- An attribute value: double-quoted, single-quoted, or unquoted.
Returns the value and the remaining input. -/
def parseAttrValue : List Char → (List Char × List Char)
  | [] => ([], [])
  | '"' :: r => (r.takeWhile (· ≠ '"'), (r.dropWhile (· ≠ '"')).drop 1)
  | q :: r =>
    if q = Char.ofNat 39 then
      (r.takeWhile (· ≠ Char.ofNat 39), (r.dropWhile (· ≠ Char.ofNat 39)).drop 1)
    else
      let l := q :: r
      (l.takeWhile (fun c => !(isPySpace c) && c ≠ '>'),
       l.dropWhile (fun c => !(isPySpace c) && c ≠ '>'))

/-- The attribute list of a start tag, up to and including the closing
`>`.  Returns the attributes, the self-closing flag and the remaining
input.  `fuel` bounds the recursion (instantiated with more than the
input length, which always suffices). -/
def parseAttrs : Nat → List Char → (List (List Char × List Char) × Bool × List Char)
  | 0, l => ([], false, l)
  | fuel + 1, l =>
    match l.dropWhile isPySpace with
    | [] => ([], false, [])
    | '>' :: r => ([], false, r)
    | '/' :: '>' :: r => ([], true, r)
    | '/' :: r => parseAttrs fuel r
    | t =>
      let aname := t.takeWhile isAttrNameChar
      if aname.isEmpty then
        match t with
        | [] => ([], false, [])
        | _ :: r => parseAttrs fuel r
      else
        let t2 := (t.dropWhile isAttrNameChar).dropWhile isPySpace
        match t2 with
        | '=' :: r2 =>
          let pv := parseAttrValue (r2.dropWhile isPySpace)
          let res := parseAttrs fuel pv.2
          ((pyLower aname, pv.1) :: res.1, res.2.1, res.2.2)
        | t3 =>
          let res := parseAttrs fuel t3
          ((pyLower aname, []) :: res.1, res.2.1, res.2.2)

/-- Body of a `<!-- ... -->` comment: text up to `-->`, and the rest. -/
def splitCommentBody : Nat → List Char → (List Char × List Char)
  | 0, l => (l, [])
  | _ + 1, [] => ([], [])
  | fuel + 1, l@(c :: rest) =>
    if List.isPrefixOf ['-', '-', '>'] l then ([], l.drop 3)
    else
      let p := splitCommentBody fuel rest
      (c :: p.1, p.2)

def tokenize : Nat → List Char → List Tok
  | 0, _ => []
  | _ + 1, [] => []
  | fuel + 1, '<' :: rest =>
    match rest with
    | '/' :: r2 =>
      Tok.tclose (pyLower (pyStrip (r2.takeWhile (· ≠ '>')))) ::
        tokenize fuel ((r2.dropWhile (· ≠ '>')).drop 1)
    | '!' :: '-' :: '-' :: r2 =>
      let cb := splitCommentBody (r2.length + 1) r2
      Tok.tcomment cb.1 :: tokenize fuel cb.2
    | c :: _ =>
      if c.isAlpha then
        let name := pyLower (rest.takeWhile isTagNameChar)
        let r2 := rest.dropWhile isTagNameChar
        let pa := parseAttrs (r2.length + 1) r2
        Tok.topen name pa.1 pa.2.1 :: tokenize fuel pa.2.2
      else
        Tok.ttext ['<'] :: tokenize fuel rest
    | [] => [Tok.ttext ['<']]
  | fuel + 1, l =>
    Tok.ttext (l.takeWhile (· ≠ '<')) :: tokenize fuel (l.dropWhile (· ≠ '<'))

/-- Elements the `html.parser` tree builder treats as empty (closed at
their start tag). -/
def voidTags : List (List Char) :=
  ["area".data, "base".data, "br".data, "col".data, "embed".data, "hr".data,
   "img".data, "input".data, "link".data, "meta".data, "param".data,
   "source".data, "track".data, "wbr".data]

/-- One open element on the builder stack; children accumulate reversed. -/
structure Frame where
  name : List Char
  attrs : List (List Char × List Char)
  rchildren : List Node

/-- The element a frame closes into. -/
def Frame.close (f : Frame) : Node :=
  Node.elem f.name f.attrs (NodeList.ofList f.rchildren.reverse)

/-- Attach a finished node to the innermost open element, or to the root
accumulator (also reversed). -/
def addNode (n : Node) : List Frame → List Node → (List Frame × List Node)
  | [], racc => ([], n :: racc)
  | f :: fs, racc => ({ f with rchildren := n :: f.rchildren } :: fs, racc)

/-- Close every element still open at end of input, innermost first. -/
def closeAllGo : Frame → List Frame → List Node → List Node
  | f, [], racc => (f.close :: racc).reverse
  | f, f2 :: fs, racc =>
    closeAllGo ⟨f2.name, f2.attrs, f.close :: f2.rchildren⟩ fs racc

def closeAll : List Frame → List Node → List Node
  | [], racc => racc.reverse
  | f :: fs, racc => closeAllGo f fs racc

/-- Handle an end tag: close open elements until one with the given name
is closed (the caller has checked that one exists). -/
def popToGo (n : List Char) : Frame → List Frame → List Node → (List Frame × List Node)
  | f, [], racc => ([], f.close :: racc)
  | f, f2 :: fs, racc =>
    let merged : Frame := ⟨f2.name, f2.attrs, f.close :: f2.rchildren⟩
    if f.name = n then (merged :: fs, racc) else popToGo n merged fs racc

def popTo (n : List Char) : List Frame → List Node → (List Frame × List Node)
  | [], racc => ([], racc)
  | f :: fs, racc => popToGo n f fs racc

def hasFrame (n : List Char) (stack : List Frame) : Bool :=
  stack.any (fun f => f.name = n)

def buildNodes : List Tok → List Frame → List Node → List Node
  | [], stack, racc => closeAll stack racc
  | Tok.ttext s :: ts, stack, racc =>
    let p := addNode (Node.text s) stack racc
    buildNodes ts p.1 p.2
  | Tok.tcomment s :: ts, stack, racc =>
    let p := addNode (Node.comment s) stack racc
    buildNodes ts p.1 p.2
  | Tok.topen n a sc :: ts, stack, racc =>
    if sc || voidTags.contains n then
      let p := addNode (Node.elem n a NodeList.nil) stack racc
      buildNodes ts p.1 p.2
    else
      buildNodes ts (⟨n, a, []⟩ :: stack) racc
  | Tok.tclose n :: ts, stack, racc =>
    if hasFrame n stack then
      let p := popTo n stack racc
      buildNodes ts p.1 p.2
    else buildNodes ts stack racc

def parseHtml (l : List Char) : NodeList :=
  NodeList.ofList (buildNodes (tokenize (l.length + 1) l) [] [])

/-! ## `cleaner.py`: `HtmlCleaner.clean_html`, tree passes -/

def attrLookup (attrs : List (List Char × List Char)) (k : List Char) :
    Option (List Char) :=
  (attrs.find? (fun p => p.1 = k)).map (fun p => p.2)

def scriptNames : List (List Char) := ["script".data, "style".data, "noscript".data]

mutual

/-- Step 1a: `tag.decompose()` for script, style and noscript elements
(`none` is a decomposed element). -/
def removeScriptsN : Node → Option Node
  | Node.text s => some (Node.text s)
  | Node.comment s => some (Node.comment s)
  | Node.elem n a ch =>
    if scriptNames.contains n then none
    else some (Node.elem n a (removeScriptsNL ch))

def removeScriptsNL : NodeList → NodeList
  | NodeList.nil => NodeList.nil
  | NodeList.cons x xs =>
    match removeScriptsN x with
    | none => removeScriptsNL xs
    | some y => NodeList.cons y (removeScriptsNL xs)

end

mutual

/-- Step 1b: `comment.extract()` for every comment. -/
def stripCommentsN : Node → Option Node
  | Node.text s => some (Node.text s)
  | Node.comment _ => none
  | Node.elem n a ch => some (Node.elem n a (stripCommentsNL ch))

def stripCommentsNL : NodeList → NodeList
  | NodeList.nil => NodeList.nil
  | NodeList.cons x xs =>
    match stripCommentsN x with
    | none => stripCommentsNL xs
    | some y => NodeList.cons y (stripCommentsNL xs)

end

mutual

/-- Step 2a: for every element carrying `data-cfemail`, decode and, if
non-empty, replace its contents with the decoded text (`tag.string = ...`).
When the outer replacement happens, nested tags are detached, so the walk
does not descend; when the decode is empty the children are processed. -/
def cfemailN : Node → Node
  | Node.text s => Node.text s
  | Node.comment s => Node.comment s
  | Node.elem n a ch =>
    match attrLookup a "data-cfemail".data with
    | some v =>
      let decoded := decode_cloudflare_email (String.mk v)
      if decoded.data.isEmpty then Node.elem n a (cfemailNL ch)
      else Node.elem n a (NodeList.cons (Node.text decoded.data) NodeList.nil)
    | none => Node.elem n a (cfemailNL ch)

def cfemailNL : NodeList → NodeList
  | NodeList.nil => NodeList.nil
  | NodeList.cons x xs => NodeList.cons (cfemailN x) (cfemailNL xs)

end

/-- `href.split("#")[-1]`: the part after the last `#` (the whole string
when there is no `#`). -/
def afterLastHash (l : List Char) : List Char :=
  (l.reverse.takeWhile (· ≠ '#')).reverse

/-- `"/cdn-cgi/l/email-protection#"`, the obfuscation marker. -/
def cfMarker : List Char := "/cdn-cgi/l/email-protection#".data

mutual

/-- Step 2b: for every anchor with an `href` containing the marker,
decode the fragment; on success rewrite `href` to `mailto:` and replace
the visible text. -/
def anchorN : Node → Node
  | Node.text s => Node.text s
  | Node.comment s => Node.comment s
  | Node.elem n a ch =>
    if n = "a".data then
      match attrLookup a "href".data with
      | some href =>
        if listContains href cfMarker then
          let email := decode_cloudflare_email (String.mk (afterLastHash href))
          if email.data.isEmpty then Node.elem n a (anchorNL ch)
          else
            Node.elem n
              (a.map (fun p =>
                if p.1 = "href".data then (p.1, "mailto:".data ++ email.data) else p))
              (NodeList.cons (Node.text email.data) NodeList.nil)
        else Node.elem n a (anchorNL ch)
      | none => Node.elem n a (anchorNL ch)
    else Node.elem n a (anchorNL ch)

def anchorNL : NodeList → NodeList
  | NodeList.nil => NodeList.nil
  | NodeList.cons x xs => NodeList.cons (anchorN x) (anchorNL xs)

end

/-- The regex search `display:\s*none` (case-insensitive) at the head. -/
def displayNoneAt (t : List Char) : Bool :=
  ciPrefix "display:".data t &&
    ciPrefix "none".data ((t.drop 8).dropWhile isPySpace)

/-- `re.search(r"display:\s*none", v, re.I)`. -/
def displayNoneSearch : List Char → Bool
  | [] => false
  | l@(_ :: rest) => displayNoneAt l || displayNoneSearch rest

mutual

/-- Step 3: `hidden.decompose()` for elements whose `style` attribute
matches the hidden pattern. -/
def hiddenN : Node → Option Node
  | Node.text s => some (Node.text s)
  | Node.comment s => some (Node.comment s)
  | Node.elem n a ch =>
    match attrLookup a "style".data with
    | some v =>
      if displayNoneSearch v then none else some (Node.elem n a (hiddenNL ch))
    | none => some (Node.elem n a (hiddenNL ch))

def hiddenNL : NodeList → NodeList
  | NodeList.nil => NodeList.nil
  | NodeList.cons x xs =>
    match hiddenN x with
    | none => hiddenNL xs
    | some y => NodeList.cons y (hiddenNL xs)

end

mutual

/-- The descendant strings of a node, in document order (comments are all
removed before extraction runs). -/
def collectStringsN : Node → List (List Char)
  | Node.text s => [s]
  | Node.comment _ => []
  | Node.elem _ _ ch => collectStringsNL ch

def collectStringsNL : NodeList → List (List Char)
  | NodeList.nil => []
  | NodeList.cons x xs => collectStringsN x ++ collectStringsNL xs

end

/-- Python `sep.join(pieces)`. -/
def joinWith (sep : List Char) : List (List Char) → List Char
  | [] => []
  | [l] => l
  | l :: ls => l ++ sep ++ joinWith sep ls

/-- `elem.get_text(" ", strip=True)`: the descendant strings, each
stripped, empties dropped, joined with a single space. -/
def getTextOf (ch : NodeList) : List Char :=
  joinWith [' '] ((collectStringsNL ch).map pyStrip |>.filter (· ≠ []))

/-- Collapse runs of characters matching `p` to a single space
(`re.sub(pattern-of-run, " ", text)` for a character-class pattern). -/
def collapseRunsAux (p : Char → Bool) : Bool → List Char → List Char
  | _, [] => []
  | prev, c :: rest =>
    if p c then
      if prev then collapseRunsAux p true rest
      else ' ' :: collapseRunsAux p true rest
    else c :: collapseRunsAux p false rest

/-- `re.sub(r"\s+", " ", text)`. -/
def collapseWS (l : List Char) : List Char := collapseRunsAux isPySpace false l

def isSpaceTab (c : Char) : Bool := c = ' ' || c = '\t'

/-- `re.sub(r"[ \t]+", " ", texto)`. -/
def collapseSpaceTab (l : List Char) : List Char := collapseRunsAux isSpaceTab false l

def contentTags : List (List Char) :=
  ["h1".data, "h2".data, "h3".data, "h4".data, "p".data, "li".data, "a".data]

/-- Step 4, the per-element body of the extraction loop. -/
def lineOfElem (n : List Char) (a : List (List Char × List Char))
    (ch : NodeList) : Option (List Char) :=
  let text := getTextOf ch
  if text.isEmpty then none
  else
    let text := collapseWS text
    if text.length < 3 then none
    else
      if n = "a".data then
        match attrLookup a "href".data with
        | some href =>
          let href := pyStrip href
          if listContains text href then some text
          else some (text ++ ':' :: ' ' :: href)
        | none => some text
      else some text

mutual

/-- Step 4: `soup.find_all(["h1","h2","h3","h4","p","li","a"])` walks
elements in document order (an element before its descendants). -/
def extractN : Node → List (List Char)
  | Node.text _ => []
  | Node.comment _ => []
  | Node.elem n a ch =>
    (if contentTags.contains n then (lineOfElem n a ch).toList else []) ++ extractNL ch

def extractNL : NodeList → List (List Char)
  | NodeList.nil => []
  | NodeList.cons x xs => extractN x ++ extractNL xs

end

/-! ## `clean_html`, string-level normalization and deduplication -/

/-- `texto.replace("\xa0", " ")`. -/
def replaceNbsp (l : List Char) : List Char :=
  l.map (fun c => if c = Char.ofNat 160 then ' ' else c)

/-- The effect of one `\n\s*\n -> \n` replacement on a maximal whitespace
run: if the run holds at least two newlines, everything from its first to
its last newline collapses to a single newline. -/
def squeezeRun (run : List Char) : List Char :=
  if 2 ≤ run.count '\n' then
    run.takeWhile (· ≠ '\n') ++ '\n' :: (run.reverse.takeWhile (· ≠ '\n')).reverse
  else run

/-- `re.sub(r"\n\s*\n", "\n", texto)`: matches start at a newline, stay
inside one maximal whitespace run (every matched character is `\s`), and
greedy `\s*` followed by the final `\n` makes each match reach the last
newline of its run, after which no further match fits in the same run.
So the substitution squeezes each maximal whitespace run independently.
`run` accumulates the current whitespace run, reversed. -/
def subBlankAcc : List Char → List Char → List Char
  | run, [] => squeezeRun run.reverse
  | run, c :: rest =>
    if isPySpace c then subBlankAcc (c :: run) rest
    else squeezeRun run.reverse ++ c :: subBlankAcc [] rest

def subBlankLines (l : List Char) : List Char :=
  subBlankAcc [] l

/-- Python `texto.split("\n")`. -/
def pySplitLines : List Char → List (List Char)
  | [] => [[]]
  | c :: rest =>
    let r := pySplitLines rest
    if c = '\n' then [] :: r
    else
      match r with
      | [] => [[c]]
      | h :: t => (c :: h) :: t

/-- The regex `:\s*(https?://|/).*?$` matches at a position iff a colon
stands there, followed (after optional whitespace, which cannot contain
the alternation heads) by `http://`, `https://` or `/`; the trailing
`.*?$` then forces the match to the end of the line, so `re.sub` erases
everything from the leftmost such colon. -/
def urlSuffixAt (rest : List Char) : Bool :=
  let t := rest.dropWhile isPySpace
  List.isPrefixOf "http://".data t || List.isPrefixOf "https://".data t ||
    List.isPrefixOf ['/'] t

/-- `re.sub(r":\s*(https?://|/).*?$", "", line)`. -/
def stripUrlSuffix : List Char → List Char
  | [] => []
  | c :: rest =>
    if c = ':' && urlSuffixAt rest then [] else c :: stripUrlSuffix rest

/-- The dedup key: strip the trailing url suffix, strip whitespace,
lowercase. -/
def dedupKey (line : List Char) : List Char :=
  pyLower (pyStrip (stripUrlSuffix line))

/-- Step 6, the dedup loop: strip each line, skip empties, keep the first
line per key (`seen` is the Python set, as a list). -/
def dedupAux (seen : List (List Char)) : List (List Char) → List (List Char)
  | [] => []
  | l :: rest =>
    let l' := pyStrip l
    if l'.isEmpty then dedupAux seen rest
    else
      let k := dedupKey l'
      if seen.contains k then dedupAux seen rest
      else l' :: dedupAux (k :: seen) rest

/-- Steps 5 and 6 of `clean_html` (whitespace normalization followed by
deduplication), as the list of retained lines. -/
def postLines (texto : List Char) : List (List Char) :=
  dedupAux [] (pySplitLines (collapseSpaceTab (subBlankLines (replaceNbsp texto))))

/-- Steps 5 and 6 of `clean_html` as a string-to-string stage. -/
def postprocessChars (texto : List Char) : List Char :=
  joinWith ['\n'] (postLines texto)

/-- Steps 5 and 6 of `clean_html` on `String`. -/
def postprocessStage (texto : String) : String :=
  String.mk (postprocessChars texto.data)

/-- Steps 1 to 3 of `clean_html` on the parsed tree. -/
def cleanTree (l : NodeList) : NodeList :=
  hiddenNL (anchorNL (cfemailNL (stripCommentsNL (removeScriptsNL l))))

/-- The extracted lines of step 4 for an input document. -/
def extractedLines (html : List Char) : List (List Char) :=
  extractNL (cleanTree (parseHtml html))

/-- The final line list of `clean_html` (after dedup). -/
def cleanHtmlLines (html : String) : List (List Char) :=
  postLines (joinWith ['\n'] (extractedLines html.data))

/-- The candidate lines the dedup loop selects from: each split line
stripped, empties removed. -/
def procLines (ls : List (List Char)) : List (List Char) :=
  (ls.map pyStrip).filter (fun l => l ≠ [])

/-- The lines fed to the dedup loop (after whitespace normalization and
the line split), stripped with empties removed: the stream the first-
occurrence rule of step 6 selects from. -/
def preDedupLines (html : String) : List (List Char) :=
  procLines (pySplitLines (collapseSpaceTab (subBlankLines (replaceNbsp
    (joinWith ['\n'] (extractedLines html.data))))))

/-- `HtmlCleaner.clean_html` end to end. -/
def clean_html (html : String) : String :=
  String.mk (joinWith ['\n'] (cleanHtmlLines html))

/-! ## `fetcher.py`: `detect_framework` and the batch fetch -/

structure FrameworkInfo where
  frameworks_detected : List String
  is_spa_like : Bool
  is_html_traditional : Bool
  deriving Repr, DecidableEq

def meaningfulTagNames : List (List Char) :=
  ["p".data, "h1".data, "h2".data, "h3".data, "li".data]

mutual

def countMeaningfulN : Node → Nat
  | Node.text _ => 0
  | Node.comment _ => 0
  | Node.elem n _ ch =>
    (if meaningfulTagNames.contains n then 1 else 0) + countMeaningfulNL ch

def countMeaningfulNL : NodeList → Nat
  | NodeList.nil => 0
  | NodeList.cons x xs => countMeaningfulN x + countMeaningfulNL xs

end

mutual

/-- `soup.body`: the first `body` element in document order, if any. -/
def findBodyN : Node → Option Node
  | Node.text _ => none
  | Node.comment _ => none
  | Node.elem n a ch =>
    if n = "body".data then some (Node.elem n a ch) else findBodyNL ch

def findBodyNL : NodeList → Option Node
  | NodeList.nil => none
  | NodeList.cons x xs =>
    match findBodyN x with
    | some b => some b
    | none => findBodyNL xs

end

/-- `len(body.find_all(["p","h1","h2","h3","li"]))`, and `0` when the
document has no `body` element (with `html.parser` no body is
synthesized). -/
def meaningfulCount (html : String) : Nat :=
  match findBodyNL (parseHtml html.data) with
  | some (Node.elem _ _ ch) => countMeaningfulNL ch
  | _ => 0

/-- Follows the wording of claim C7 ("the document contains more than 5
tags from ..."): the same count taken over the whole document instead of
the explicit `body` element.  Used only to compare the claim against the
source behaviour. -/
def countMeaningfulDoc (html : String) : Nat :=
  countMeaningfulNL (parseHtml html.data)

/-- `BaseScraper.detect_framework`. -/
def detect_framework (html : String) : FrameworkInfo :=
  let lower := pyLower html.data
  let r := reactDetected lower
  let v := vueDetected lower
  let a := angularDetected lower
  let n := nextjsDetected lower
  let isSpa := r || v || a || n
  { frameworks_detected :=
      (([("react", r), ("vue", v), ("angular", a), ("nextjs", n)] :
        List (String × Bool)).filter (fun p => p.2)).map (fun p => p.1)
    is_spa_like := isSpa
    is_html_traditional := !isSpa && decide (5 < meaningfulCount html) }

/-- One row of the batch result.  `signals = detect_signals(html)` is a
further pure function of the body; no claim below refers to it and it is
not carried in this record model. -/
structure FetchRecord where
  url : String
  size : Nat
  framework : FrameworkInfo
  html : String
  deriving Repr, DecidableEq

/-- `DuckDuckGoScraper.fetch_html`: the politeness sleep, HTTP GET,
status check and byte decode are external I/O, represented by an oracle
mapping each url to `some body` (the decoded text) or `none` (any
exception: network error, timeout, non-2xx status).  Every exception is
caught and turned into `None`. -/
def fetch_html (oracle : String → Option String) (url : String) :
    Option FetchRecord :=
  (oracle url).map (fun body =>
    { url := url
      size := body.data.length
      framework := detect_framework body
      html := body })

/-- `DuckDuckGoScraper.fetch_multiple`: one future per url; results are
collected in the order `as_completed` yields them (`completionOrder`, a
permutation of the submitted urls); a `None` from `fetch_html` is
skipped.  The worker-count computation and the progress printing do not
affect the returned collection. -/
def fetch_multiple (oracle : String → Option String)
    (urls completionOrder : List String) : List FetchRecord :=
  if urls.isEmpty then []
  else completionOrder.filterMap (fetch_html oracle)

/-! ## Helper lemmas -/

lemma allSameChar_iff (l : List Char) :
    allSameChar l = true ↔ l ≠ [] ∧ ∃ d, l = List.replicate l.length d := by
  cases l with
  | nil => simp [allSameChar]
  | cons h t =>
    simp only [allSameChar, List.all_eq_true, ne_eq, reduceCtorEq, not_false_iff,
      true_and, decide_eq_true_eq]
    constructor
    · intro hall
      refine ⟨h, ?_⟩
      rw [List.eq_replicate_iff]
      refine ⟨rfl, ?_⟩
      intro b hb
      rcases List.mem_cons.mp hb with rfl | hbt
      · rfl
      · exact hall b hbt
    · rintro ⟨d, hd⟩ b hb
      rw [List.eq_replicate_iff] at hd
      have hh := hd.2 h (List.mem_cons_self h t)
      have hbv := hd.2 b (List.mem_cons_of_mem _ hb)
      rw [hbv, hh]

lemma clean_number_idem (s : String) :
    clean_number (clean_number s) = clean_number s := by
  simp [clean_number, List.filter_filter]

/-! ## Claims C3 and C10: phone validity -/

/-- C3: `is_valid_phone` accepts exactly the candidates whose digit-only
form has length in `[8, 12]`, is not a single repeated digit, and is not
an 11- or 12-digit string beginning with `16` or `17`; the four concrete
examples of the claim behave as stated. -/
theorem claim_C3 :
    (∀ s : String,
      is_valid_phone s = true ↔
        (8 ≤ (clean_number s).data.length ∧ (clean_number s).data.length ≤ 12 ∧
          ¬ (∃ d, (clean_number s).data =
              List.replicate (clean_number s).data.length d) ∧
          ¬ (11 ≤ (clean_number s).data.length ∧
            (List.isPrefixOf ['1', '6'] (clean_number s).data = true ∨
              List.isPrefixOf ['1', '7'] (clean_number s).data = true)))) ∧
    is_valid_phone "12345678" = true ∧
    is_valid_phone "5551234567" = true ∧
    is_valid_phone "1111111111" = false ∧
    is_valid_phone "16555512345" = false := by
  refine ⟨?_, by decide, by decide, by decide, by decide⟩
  intro s
  set l := (clean_number s).data with hl
  have hlen : l = [] → l.length = 0 := by intro h; rw [h]; rfl
  simp only [is_valid_phone, ← hl]
  split_ifs with h1 h2 h3 h4
  · simp only [Bool.or_eq_true, decide_eq_true_eq] at h1
    constructor
    · intro h; exact absurd h (by simp)
    · rintro ⟨ha, hb, -, -⟩; omega
  · simp only [decide_eq_true_eq] at h2
    constructor
    · intro h; exact absurd h (by simp)
    · rintro ⟨-, hb, -, -⟩; omega
  · simp only [Bool.and_eq_true, Bool.or_eq_true, decide_eq_true_eq] at h3
    constructor
    · intro h; exact absurd h (by simp)
    · rintro ⟨-, -, -, hc⟩; exact hc ⟨h3.1, h3.2⟩
  · rw [allSameChar_iff] at h4
    constructor
    · intro h; exact absurd h (by simp)
    · rintro ⟨ha, -, hc, -⟩
      exfalso
      refine hc ?_
      rcases h4 with ⟨-, d, hd⟩
      exact ⟨d, hd⟩
  · simp only [Bool.or_eq_true, decide_eq_true_eq, not_or] at h1
    simp only [decide_eq_true_eq] at h2
    simp only [Bool.and_eq_true, Bool.or_eq_true, decide_eq_true_eq] at h3
    rw [allSameChar_iff] at h4
    have hne : l ≠ [] := by
      intro h; have := hlen h; omega
    constructor
    · intro _
      refine ⟨by omega, by omega, ?_, ?_⟩
      · intro ⟨d, hd⟩
        exact h4 ⟨hne, d, hd⟩
      · intro ⟨ha, hb⟩
        exact h3 ⟨ha, hb⟩
    · intro _; rfl

/-- C10: validity factors through `clean_number`: it only depends on the
digit subsequence of the candidate. -/
theorem claim_C10 :
    (∀ s : String, is_valid_phone s = is_valid_phone (clean_number s)) ∧
    (∀ s t : String, clean_number s = clean_number t →
      is_valid_phone s = is_valid_phone t) := by
  have base : ∀ s : String, is_valid_phone s = is_valid_phone (clean_number s) := by
    intro s
    simp only [is_valid_phone, clean_number_idem]
  refine ⟨base, ?_⟩
  intro s t h
  rw [base s, base t, h]

/-- Witness for C10 at a concrete pair of candidates with the same digit
subsequence. -/
theorem claim_C10_witness :
    clean_number "449 805 5337" = clean_number "(449) 805-5337" ∧
    is_valid_phone "449 805 5337" = is_valid_phone "(449) 805-5337" :=
  ⟨by decide, claim_C10.2 "449 805 5337" "(449) 805-5337" (by decide)⟩

/-! ## Claim C4: decoder error policy -/

/-- A character that can never occur in a successful `int(x, 16)` parse:
not a hex digit, not whitespace, not a sign, not an underscore. -/
def hexFeasible (c : Char) : Bool :=
  (hexVal? c).isSome || isPySpace c || c = '+' || c = '-' || c = '_'

lemma mem_dropWhile_of_not (p : Char → Bool) (c : Char) :
    ∀ l : List Char, c ∈ l → p c = false → c ∈ l.dropWhile p := by
  intro l
  induction l with
  | nil => intro h; exact absurd h (List.not_mem_nil c)
  | cons h t ih =>
    intro hm hp
    rw [List.dropWhile_cons]
    split
    · rcases List.mem_cons.mp hm with rfl | hmt
      · simp_all
      · exact ih hmt hp
    · exact hm

lemma mem_pyStrip_of_not_space (c : Char) (l : List Char) (hm : c ∈ l)
    (hp : isPySpace c = false) : c ∈ pyStrip l := by
  unfold pyStrip
  rw [List.mem_reverse]
  refine mem_dropWhile_of_not _ _ _ ?_ hp
  rw [List.mem_reverse]
  exact mem_dropWhile_of_not _ _ _ hm hp

lemma goHexDigits_some_mem (acc : Nat) (l : List Char) (v : Nat)
    (h : goHexDigits acc l = some v) :
    ∀ x ∈ l, x = '_' ∨ (hexVal? x).isSome = true := by
  induction acc, l using goHexDigits.induct generalizing v with
  | case1 acc => intro x hx; exact absurd hx (List.not_mem_nil x)
  | case2 acc => simp [goHexDigits] at h
  | case3 acc c rest' hv => simp [goHexDigits, hv] at h
  | case4 acc c rest' w hv ih =>
    simp only [goHexDigits, hv] at h
    intro x hx
    rcases List.mem_cons.mp hx with rfl | hx2
    · exact Or.inl rfl
    rcases List.mem_cons.mp hx2 with rfl | hx3
    · exact Or.inr (by simp [hv])
    · exact ih _ h x hx3
  | case5 acc c rest hne hne2 hv =>
    rw [goHexDigits, hv] at h
    · simp at h
    · exact hne
    · exact hne2
  | case6 acc c rest hne hne2 w hv ih =>
    rw [goHexDigits, hv] at h
    · intro x hx
      rcases List.mem_cons.mp hx with rfl | hx2
      · exact Or.inr (by simp [hv])
      · exact ih _ h x hx2
    · exact hne
    · exact hne2

lemma parseHexDigits_some_mem (l : List Char) (v : Nat)
    (h : parseHexDigits? l = some v) :
    ∀ x ∈ l, x = '_' ∨ (hexVal? x).isSome = true := by
  cases l with
  | nil => intro x hx; exact absurd hx (List.not_mem_nil x)
  | cons c rest =>
    intro x hx
    rw [parseHexDigits?] at h
    cases hv : hexVal? c with
    | none => rw [hv] at h; simp at h
    | some w =>
      rw [hv] at h
      rcases List.mem_cons.mp hx with rfl | hx2
      · exact Or.inr (by simp [hv])
      · exact goHexDigits_some_mem _ _ _ h x hx2

lemma parseHexDigits_none_of_bad (l : List Char) (x : Char) (hx : x ∈ l)
    (hbad : hexFeasible x = false) : parseHexDigits? l = none := by
  cases hp : parseHexDigits? l with
  | none => rfl
  | some v =>
    exfalso
    rcases parseHexDigits_some_mem l v hp x hx with rfl | hs
    · simp [hexFeasible] at hbad
    · simp only [hexFeasible, Bool.or_eq_false_iff] at hbad
      rw [hbad.1.1.1.1] at hs
      exact absurd hs (by simp)

lemma pyIntHexCore_none_of_bad (t : List Char) (x : Char) (hx : x ∈ t)
    (hbad : hexFeasible x = false) : pyIntHexCore t = none := by
  have hxp : x ≠ '+' := by
    intro h; rw [h] at hbad; simp [hexFeasible] at hbad
  have hxm : x ≠ '-' := by
    intro h; rw [h] at hbad; simp [hexFeasible] at hbad
  cases t with
  | nil => exact absurd hx (List.not_mem_nil x)
  | cons c r =>
    by_cases hc : c = '+'
    · subst hc
      have hxr : x ∈ r := by
        rcases List.mem_cons.mp hx with rfl | h
        · exact absurd rfl hxp
        · exact h
      simp [pyIntHexCore, parseHexDigits_none_of_bad r x hxr hbad]
    · by_cases hc2 : c = '-'
      · subst hc2
        have hxr : x ∈ r := by
          rcases List.mem_cons.mp hx with rfl | h
          · exact absurd rfl hxm
          · exact h
        simp [pyIntHexCore, parseHexDigits_none_of_bad r x hxr hbad]
      · rw [pyIntHexCore]
        · rw [parseHexDigits_none_of_bad (c :: r) x hx hbad]
          rfl
        · intro r' h; exact absurd (List.head_eq_of_cons_eq h) hc
        · intro r' h; exact absurd (List.head_eq_of_cons_eq h) hc2

lemma pyIntHex_none_of_bad (l : List Char) (x : Char) (hx : x ∈ l)
    (hbad : hexFeasible x = false) : pyIntHex? l = none := by
  have hsp : isPySpace x = false := by
    simp only [hexFeasible, Bool.or_eq_false_iff] at hbad
    exact hbad.1.1.1.2
  exact pyIntHexCore_none_of_bad _ x (mem_pyStrip_of_not_space x l hx hsp) hbad

lemma decodeBody_none_of_bad (n : Int) (l : List Char) (x : Char) (hx : x ∈ l)
    (hbad : hexFeasible x = false) : decodeBody n l = none := by
  induction l using decodeBody.induct (n := n) with
  | case1 => exact absurd hx (List.not_mem_nil x)
  | case2 c hc => simp [decodeBody, hc]
  | case3 c v hv hch =>
    have hxc : x = c := by simpa using hx
    subst hxc
    rw [pyIntHex_none_of_bad [x] x (by simp) hbad] at hv
    exact absurd hv (by simp)
  | case4 c v hv ch hch =>
    have hxc : x = c := by simpa using hx
    subst hxc
    rw [pyIntHex_none_of_bad [x] x (by simp) hbad] at hv
    exact absurd hv (by simp)
  | case5 c1 c2 rest hv => simp [decodeBody, hv]
  | case6 c1 c2 rest v hv hch => simp [decodeBody, hv, hch]
  | case7 c1 c2 rest v hv ch hch ih =>
    rcases List.mem_cons.mp hx with rfl | hx2
    · rw [pyIntHex_none_of_bad [x, c2] x (by simp) hbad] at hv
      exact absurd hv (by simp)
    rcases List.mem_cons.mp hx2 with rfl | hx3
    · rw [pyIntHex_none_of_bad [c1, x] x (by simp) hbad] at hv
      exact absurd hv (by simp)
    · simp [decodeBody, hv, hch, ih hx3]

/-- C4 (amended): a payload containing any character that cannot occur in
a hexadecimal integer literal decodes to the empty string; the decoder is
a total function, so no exception ever reaches the caller.  (The claim's
odd-length case is refuted by the counterexample below: the trailing lone
character parses as a one-digit hex byte.) -/
theorem claim_C4 (cf : String) (h : ∃ x ∈ cf.data, hexFeasible x = false) :
    decode_cloudflare_email cf = "" := by
  obtain ⟨x, hx, hbad⟩ := h
  have := List.take_append_drop 2 cf.data
  rw [decode_cloudflare_email]
  rcases (List.mem_append.mp (by rw [this]; exact hx)) with h1 | h2
  · rw [pyIntHex_none_of_bad _ x h1 hbad]
  · cases hk : pyIntHex? (cf.data.take 2) with
    | none => rfl
    | some n =>
      have hd := decodeBody_none_of_bad n (cf.data.drop 2) x h2 hbad
      simp [hd]

/-- Witness for C4 at the concrete malformed payload `"0zz"`. -/
theorem claim_C4_witness :
    (∃ x ∈ "0zz".data, hexFeasible x = false) ∧
    decode_cloudflare_email "0zz" = "" :=
  ⟨by decide, claim_C4 "0zz" (by decide)⟩

/-- Counterexample to C4 as stated: `"000"` has odd length (a malformed
payload in the claim's sense), yet the decoder returns the one-character
string `"\x00"`, not the empty string. -/
theorem claim_C4_counterexample :
    "000".data.length % 2 = 1 ∧
    decode_cloudflare_email "000" = String.mk [Char.ofNat 0] ∧
    decode_cloudflare_email "000" ≠ "" := by
  refine ⟨by decide, by decide, by decide⟩

/-! ## Claim C5: encode/decode round trip -/

set_option maxRecDepth 8000 in
lemma pyIntHex_toHexPair (b : Nat) (hb : b < 256) :
    pyIntHex? (toHexPair b) = some (b : Int) := by
  have hall : ∀ f : Fin 256, pyIntHex? (toHexPair f.val) = some ((f.val : Nat) : Int) := by
    decide
  exact hall ⟨b, hb⟩

lemma pyXor_natCast (a b : Nat) : pyXor (a : Int) (b : Int) = ((a ^^^ b : Nat) : Int) := by
  rw [pyXor, if_pos (by positivity), if_pos (by positivity)]
  simp

lemma decodeBody_cons_some (n v : Int) (a b : Char) (rest : List Char) (ch : Char)
    (cs : List Char) (hk : pyIntHex? [a, b] = some v)
    (hv : pyChr? (pyXor v n) = some ch) (ih : decodeBody n rest = some cs) :
    decodeBody n (a :: b :: rest) = some (ch :: cs) := by
  simp only [decodeBody, hk, hv, ih]
  rfl

lemma decode_eq_of (cf : String) (n : Int) (cs : List Char)
    (hk : pyIntHex? (cf.data.take 2) = some n)
    (hb : decodeBody n (cf.data.drop 2) = some cs) :
    decode_cloudflare_email cf = String.mk cs := by
  simp only [decode_cloudflare_email, hk, hb]

lemma decodeBody_encode (key : Nat) (s : List Char)
    (hkey : key < 256) (hascii : ∀ c ∈ s, c.toNat < 128) :
    decodeBody (key : Int) ((s.map (fun c => toHexPair (c.toNat ^^^ key))).flatten) =
      some s := by
  induction s with
  | nil => rfl
  | cons c cs ih =>
    have hc : c.toNat < 128 := hascii c (List.mem_cons_self c cs)
    have hxor : c.toNat ^^^ key < 256 := by
      have : c.toNat ^^^ key < 2 ^ 8 :=
        Nat.xor_lt_two_pow (by omega) (by omega)
      omega
    have hpair : toHexPair (c.toNat ^^^ key) =
        [hexDigitChar ((c.toNat ^^^ key) / 16), hexDigitChar ((c.toNat ^^^ key) % 16)] := rfl
    simp only [List.map_cons, List.flatten_cons, hpair, List.cons_append, List.nil_append]
    have hk : pyIntHex? [hexDigitChar ((c.toNat ^^^ key) / 16),
        hexDigitChar ((c.toNat ^^^ key) % 16)] = some ((c.toNat ^^^ key : Nat) : Int) := by
      have := pyIntHex_toHexPair (c.toNat ^^^ key) hxor
      rwa [hpair] at this
    have hself : (c.toNat ^^^ key) ^^^ key = c.toNat := by
      rw [Nat.xor_assoc, Nat.xor_self, Nat.xor_zero]
    have hchr : pyChr? ((c.toNat : Nat) : Int) = some c := by
      rw [pyChr?, if_pos]
      · simp [Char.ofNat_toNat]
      · constructor
        · positivity
        · left
          have : c.toNat < 128 := hc
          omega
    have hv : pyChr? (pyXor ((c.toNat ^^^ key : Nat) : Int) (key : Int)) = some c := by
      rw [pyXor_natCast, hself]; exact hchr
    exact decodeBody_cons_some _ _ _ _ _ _ _ hk hv
      (ih (fun x hx => hascii x (List.mem_cons_of_mem c hx)))

/-- C5: decoding an encoding of any ASCII string under any key byte
returns the original string; the encoder is the spec's section 4.1
algorithm read in reverse. -/
theorem claim_C5 (s : String) (key : Nat) (hkey : key < 256)
    (hascii : ∀ c ∈ s.data, c.toNat < 128) :
    decode_cloudflare_email (String.mk (encodeCfemail key s.data)) = s := by
  have h1 : (String.mk (encodeCfemail key s.data)).data.take 2 = toHexPair key := rfl
  have h2 : (String.mk (encodeCfemail key s.data)).data.drop 2 =
      (s.data.map (fun c => toHexPair (c.toNat ^^^ key))).flatten := rfl
  have hk : pyIntHex? ((String.mk (encodeCfemail key s.data)).data.take 2) =
      some ((key : Nat) : Int) := by
    rw [h1]; exact pyIntHex_toHexPair key hkey
  have hb : decodeBody ((key : Nat) : Int)
      ((String.mk (encodeCfemail key s.data)).data.drop 2) = some s.data := by
    rw [h2]; exact decodeBody_encode key s.data hkey hascii
  rw [decode_eq_of _ _ _ hk hb]

/-- Witness for C5 at a concrete email and key. -/
theorem claim_C5_witness :
    42 < 256 ∧ (∀ c ∈ "ab@c.io".data, c.toNat < 128) ∧
    decode_cloudflare_email (String.mk (encodeCfemail 42 "ab@c.io".data)) = "ab@c.io" :=
  ⟨by decide, by decide, claim_C5 "ab@c.io" 42 (by decide) (by decide)⟩

/-! ## Claims C7 and C9: framework detection -/

/-- C7 (amended): `is_html_traditional` holds iff no framework is
detected and the explicit `body` element of the document contains more
than 5 tags from `{h1, h2, h3, p, li}` (a document without a `body`
element counts 0).  The claim's count over the whole document is refuted
by the counterexample below. -/
theorem claim_C7 (html : String) :
    (detect_framework html).is_html_traditional = true ↔
      ((detect_framework html).frameworks_detected = [] ∧
        5 < meaningfulCount html) := by
  cases hr : reactDetected (pyLower html.data) <;>
    cases hv : vueDetected (pyLower html.data) <;>
      cases ha : angularDetected (pyLower html.data) <;>
        cases hn : nextjsDetected (pyLower html.data) <;>
          simp [detect_framework, hr, hv, ha, hn, decide_eq_true_eq]

/-- Counterexample to C7 as stated: a document made of six `p` elements
with no `body` wrapper (and the same six `p` elements next to an explicit
empty `body`).  In both, no framework is detected and the document
contains more than 5 meaningful tags, yet `is_html_traditional` is false,
because the source counts tags inside `soup.body` only. -/
theorem claim_C7_counterexample :
    ((detect_framework
        "<p>alpha</p><p>beta</p><p>gamma</p><p>delta</p><p>epsilon</p><p>zeta</p>").frameworks_detected
        = [] ∧
      5 < countMeaningfulDoc
        "<p>alpha</p><p>beta</p><p>gamma</p><p>delta</p><p>epsilon</p><p>zeta</p>" ∧
      (detect_framework
        "<p>alpha</p><p>beta</p><p>gamma</p><p>delta</p><p>epsilon</p><p>zeta</p>").is_html_traditional
        = false) ∧
    ((detect_framework
        "<body></body><p>alpha</p><p>beta</p><p>gamma</p><p>delta</p><p>epsilon</p><p>zeta</p>").frameworks_detected
        = [] ∧
      5 < countMeaningfulDoc
        "<body></body><p>alpha</p><p>beta</p><p>gamma</p><p>delta</p><p>epsilon</p><p>zeta</p>" ∧
      (detect_framework
        "<body></body><p>alpha</p><p>beta</p><p>gamma</p><p>delta</p><p>epsilon</p><p>zeta</p>").is_html_traditional
        = false) := by
  refine ⟨⟨by decide, by decide, by decide⟩, by decide, by decide, by decide⟩

/-- C9 (amended): whenever the react fingerprint regex
`<div[^>]+id=["\x27]root["\x27]` matches the lowercased markup, "react"
is reported, `is_spa_like` is true and `is_html_traditional` is false.
Plain `id="root"` containment without a `<div` start tag is not enough;
see the counterexample. -/
theorem claim_C9 (html : String)
    (h : divRootSearch (pyLower html.data) = true) :
    "react" ∈ (detect_framework html).frameworks_detected ∧
    (detect_framework html).is_spa_like = true ∧
    (detect_framework html).is_html_traditional = false := by
  have hr : reactDetected (pyLower html.data) = true := by
    simp [reactDetected, h]
  simp [detect_framework, hr]

/-- Witness for C9 at a markup whose div carries `id="root"`. -/
theorem claim_C9_witness :
    divRootSearch (pyLower "<div id=\"root\"></div>".data) = true ∧
    ("react" ∈ (detect_framework "<div id=\"root\"></div>").frameworks_detected ∧
      (detect_framework "<div id=\"root\"></div>").is_spa_like = true ∧
      (detect_framework "<div id=\"root\"></div>").is_html_traditional = false) :=
  ⟨by decide, claim_C9 "<div id=\"root\"></div>" (by decide)⟩

/-- Counterexample to C9 as stated: `<span id="root"></span>` contains
`id="root"` and no react-dom marker, yet no framework is detected and
`is_spa_like` is false — the fingerprint requires a `<div` start tag. -/
theorem claim_C9_counterexample :
    listContains (pyLower "<span id=\"root\"></span>".data) "id=\"root\"".data = true ∧
    listContains (pyLower "<span id=\"root\"></span>".data) "react-dom".data = false ∧
    "react" ∉ (detect_framework "<span id=\"root\"></span>").frameworks_detected ∧
    (detect_framework "<span id=\"root\"></span>").is_spa_like = false := by
  refine ⟨by decide, by decide, by decide, by decide⟩

/-! ## Claim C8: the Locator -/

lemma filter_digit_takeWhile_nondigit (l : List Char) :
    (l.takeWhile (fun x => !x.isDigit)).filter (fun c => c.isDigit) = [] := by
  rw [List.filter_eq_nil_iff]
  intro a ha
  have := List.mem_takeWhile_imp ha
  simpa using this

lemma take_length_takeWhile (p : Char → Bool) (l : List Char) :
    l.take (l.takeWhile p).length = l.takeWhile p :=
  (List.prefix_iff_eq_take.mp (List.takeWhile_prefix p)).symm

lemma matchDigitsAt_take (ds : List Char) (hds : ∀ c ∈ ds, c.isDigit = true) :
    ∀ t n, matchDigitsAt ds t = some n →
      (t.take n).filter (fun c => c.isDigit) = ds ∧ (t.take n).head? = ds.head? := by
  induction ds with
  | nil => intro t n h; simp [matchDigitsAt] at h
  | cons d ds' ih =>
    intro t n h
    cases ds' with
    | nil =>
      cases t with
      | nil => simp [matchDigitsAt] at h
      | cons c rest =>
        rw [matchDigitsAt] at h
        split_ifs at h with hc
        subst hc
        have hn : n = (rest.takeWhile (fun x => !x.isDigit)).length + 1 := by
          have := Option.some.inj h
          omega
        subst hn
        rw [List.take_succ_cons]
        constructor
        · rw [List.filter_cons, take_length_takeWhile]
          simp [hds c (by simp), filter_digit_takeWhile_nondigit]
        · simp
    | cons d2 ds2 =>
      cases t with
      | nil => simp [matchDigitsAt] at h
      | cons c rest =>
        rw [matchDigitsAt] at h
        split_ifs at h with hc
        subst hc
        cases hm : matchDigitsAt (d2 :: ds2)
            (rest.drop (rest.takeWhile (fun x => !x.isDigit)).length) with
        | none => rw [hm] at h; simp at h
        | some m =>
          rw [hm] at h
          have hn : n = ((rest.takeWhile (fun x => !x.isDigit)).length + m) + 1 := by
            have := Option.some.inj h
            omega
          subst hn
          obtain ⟨hf, hh⟩ := ih (fun x hx => hds x (List.mem_cons_of_mem _ hx)) _ _ hm
          have hsplit :
              rest.take ((rest.takeWhile (fun x => !x.isDigit)).length + m) =
                rest.takeWhile (fun x => !x.isDigit) ++
                  (rest.drop (rest.takeWhile (fun x => !x.isDigit)).length).take m := by
            rw [List.take_add, take_length_takeWhile]
          rw [List.take_succ_cons, hsplit]
          constructor
          · rw [List.filter_cons]
            simp only [hds c (by simp), if_pos, List.filter_append,
              filter_digit_takeWhile_nondigit, List.nil_append]
            rw [hf]
          · simp

lemma scanDigits_mem (digits : List Char) :
    ∀ fuel pos t sp, sp ∈ scanDigits digits fuel pos t →
      ∃ k m, sp = (pos + k, pos + k + m) ∧ matchDigitsAt digits (t.drop k) = some m := by
  intro fuel
  induction fuel with
  | zero => intro pos t sp h; simp [scanDigits] at h
  | succ f ih =>
    intro pos t sp h
    cases t with
    | nil => simp [scanDigits] at h
    | cons c rest =>
      rw [scanDigits] at h
      cases hm : matchDigitsAt digits (c :: rest) with
      | some n =>
        rw [hm] at h
        rcases List.mem_cons.mp h with rfl | h2
        · exact ⟨0, n, by simp, by simpa using hm⟩
        · obtain ⟨k, m, hsp, hmm⟩ := ih (pos + n) ((c :: rest).drop n) sp h2
          refine ⟨n + k, m, ?_, ?_⟩
          · rw [hsp]; ring_nf
          · rw [List.drop_drop] at hmm
            exact hmm
      | none =>
        rw [hm] at h
        obtain ⟨k, m, hsp, hmm⟩ := ih (pos + 1) rest sp h
        refine ⟨1 + k, m, ?_, ?_⟩
        · rw [hsp]; ring_nf
        · rw [show (1 : Nat) + k = k + 1 by omega, List.drop_succ_cons]
          exact hmm

/-- C8 (amended): the concrete call returns exactly one hit whose match
text is `"449-805-5337 now</p>"` — the digit core plus the trailing run
of non-digits forced by the final `\D*` of the pattern — with a snippet
containing "call"; in general every hit of the digit branch starts at the
first target digit and its digit subsequence is exactly the target's
digits, so non-digit runs appear only between consecutive digits and
after the last one (never before the first). -/
theorem claim_C8 :
    (find_string_in_html "449 805 5337" "<p>call 449-805-5337 now</p>" 50 =
      [{ source := "raw", matchStr := "449-805-5337 now</p>", startPos := 8,
         endPos := 28, snippet := "<p>call 449-805-5337 now</p>" }] ∧
      listContains "<p>call 449-805-5337 now</p>".data "call".data = true) ∧
    (∀ (target html : String) (hit : LocatorHit),
      hit ∈ find_string_in_html target html 50 →
      target.data.filter (fun c => c.isDigit) ≠ [] →
      hit.matchStr.data.filter (fun c => c.isDigit) =
        target.data.filter (fun c => c.isDigit) ∧
      hit.matchStr.data.head? =
        (target.data.filter (fun c => c.isDigit)).head?) := by
  refine ⟨⟨by decide, by decide⟩, ?_⟩
  intro target html hit hmem hne
  rw [find_string_in_html] at hmem
  split_ifs at hmem with hguard
  · exact absurd hmem (List.not_mem_nil hit)
  · have hde : (target.data.filter (fun c => c.isDigit)).isEmpty = false := by
      cases hfe : target.data.filter (fun c => c.isDigit) with
      | nil => exact absurd hfe hne
      | cons a b => rfl
    simp only [hde, Bool.false_eq_true, if_false] at hmem
    rw [mkHits] at hmem
    obtain ⟨sp, hsp, hhit⟩ := List.mem_map.mp hmem
    obtain ⟨k, m, hspe, hmm⟩ :=
      scanDigits_mem (target.data.filter (fun c => c.isDigit)) _ _ _ _ hsp
    have hds : ∀ c ∈ target.data.filter (fun c => c.isDigit), c.isDigit = true :=
      fun c hc => List.of_mem_filter hc
    obtain ⟨hf, hh⟩ := matchDigitsAt_take _ hds _ _ hmm
    have hmatch : hit.matchStr.data = (html.data.drop k).take m := by
      rw [← hhit, hspe]
      show (pySlice html.data (0 + k) (0 + k + m)) = _
      rw [pySlice]
      simp
    rw [hmatch]
    exact ⟨hf, hh⟩

/-- Witness for C8 instantiating the universal part at the concrete hit. -/
theorem claim_C8_witness :
    ({ source := "raw", matchStr := "449-805-5337 now</p>", startPos := 8,
       endPos := 28, snippet := "<p>call 449-805-5337 now</p>" } : LocatorHit) ∈
        find_string_in_html "449 805 5337" "<p>call 449-805-5337 now</p>" 50 ∧
    "449 805 5337".data.filter (fun c => c.isDigit) ≠ [] ∧
    ("449-805-5337 now</p>".data.filter (fun c => c.isDigit) =
        "449 805 5337".data.filter (fun c => c.isDigit) ∧
      "449-805-5337 now</p>".data.head? =
        ("449 805 5337".data.filter (fun c => c.isDigit)).head?) :=
  ⟨by decide, by decide,
    claim_C8.2 "449 805 5337" "<p>call 449-805-5337 now</p>"
      { source := "raw", matchStr := "449-805-5337 now</p>", startPos := 8,
        endPos := 28, snippet := "<p>call 449-805-5337 now</p>" }
      (by decide) (by decide)⟩

/-- Counterexample to C8 as stated: the single hit's match text is not
the bare `"449-805-5337"` — it extends through the trailing non-digits to
the end of the document, because the pattern ends with `\D*`. -/
theorem claim_C8_counterexample :
    (find_string_in_html "449 805 5337" "<p>call 449-805-5337 now</p>" 50).map
        LocatorHit.matchStr = ["449-805-5337 now</p>"] ∧
    ("449-805-5337 now</p>" : String) ≠ "449-805-5337" := by
  refine ⟨by decide, by decide⟩

/-! ## Claim C6: batch fetch -/

lemma fetchMultiple_map_url (oracle : String → Option String) (order : List String) :
    (order.filterMap (fetch_html oracle)).map FetchRecord.url =
      order.filter (fun u => (oracle u).isSome) := by
  induction order with
  | nil => rfl
  | cons u rest ih =>
    rw [List.filterMap_cons]
    cases ho : oracle u with
    | none => simpa [fetch_html, ho, List.filter_cons] using ih
    | some b => simpa [fetch_html, ho, List.filter_cons] using ih

lemma filter_isSome_length (oracle : String → Option String) (l : List String) :
    (l.filter (fun u => (oracle u).isSome)).length =
      l.length - (l.filter (fun u => (oracle u).isNone)).length := by
  have h := List.length_eq_countP_add_countP (fun u => (oracle u).isSome) l
  rw [List.countP_eq_length_filter, List.countP_eq_length_filter] at h
  have hc : l.filter (fun a => decide ¬((oracle a).isSome = true)) =
      l.filter (fun u => (oracle u).isNone) := by
    apply List.filter_congr
    intro a _
    cases oracle a <;> simp
  rw [hc] at h
  omega

/-- C6: the batch fetch over distinct urls returns, in any completion
order, exactly one record per url whose fetch succeeded — so N minus K
records when K of the N fetches fail — each carrying a url from the input
set, with no duplicate urls.  Failures are omissions: the function is
total, so no exception reaches the caller. -/
theorem claim_C6 (oracle : String → Option String) (urls order : List String)
    (hperm : order.Perm urls) (hnodup : urls.Nodup) :
    (fetch_multiple oracle urls order).length =
      urls.length - (urls.filter (fun u => (oracle u).isNone)).length ∧
    (∀ r ∈ fetch_multiple oracle urls order, r.url ∈ urls) ∧
    ((fetch_multiple oracle urls order).map FetchRecord.url).Nodup := by
  cases urls with
  | nil =>
    have ho : order = [] := List.perm_nil.mp hperm
    subst ho
    exact ⟨rfl, fun r hr => absurd hr (List.not_mem_nil r), List.nodup_nil⟩
  | cons u us =>
    have hres : fetch_multiple oracle (u :: us) order =
        order.filterMap (fetch_html oracle) := rfl
    rw [hres]
    refine ⟨?_, ?_, ?_⟩
    · have hlen : (order.filterMap (fetch_html oracle)).length =
          ((order.filterMap (fetch_html oracle)).map FetchRecord.url).length := by
        rw [List.length_map]
      rw [hlen, fetchMultiple_map_url, filter_isSome_length]
      have h1 := (hperm.filter (fun u => (oracle u).isSome)).length_eq
      have h2 := (hperm.filter (fun u => (oracle u).isNone)).length_eq
      have h3 := hperm.length_eq
      omega
    · intro r hr
      have hu : r.url ∈ (order.filterMap (fetch_html oracle)).map FetchRecord.url :=
        List.mem_map_of_mem FetchRecord.url hr
      rw [fetchMultiple_map_url] at hu
      exact hperm.mem_iff.mp (List.mem_of_mem_filter hu)
    · rw [fetchMultiple_map_url]
      exact List.Nodup.filter _ (hperm.symm.nodup hnodup)

/-- Witness for C6: three urls of which one fails, collected in an order
different from submission order. -/
theorem claim_C6_witness :
    (["c", "a", "b"].Perm ["a", "b", "c"] ∧ (["a", "b", "c"] : List String).Nodup) ∧
    ((fetch_multiple (fun u => if u = "b" then none else some "<p>x</p>")
        ["a", "b", "c"] ["c", "a", "b"]).length =
      (["a", "b", "c"] : List String).length -
        ((["a", "b", "c"] : List String).filter
          (fun u => ((fun u => if u = "b" then none else
            some ("<p>x</p>" : String)) u).isNone)).length ∧
      (∀ r ∈ fetch_multiple (fun u => if u = "b" then none else some "<p>x</p>")
          ["a", "b", "c"] ["c", "a", "b"], r.url ∈ (["a", "b", "c"] : List String)) ∧
      ((fetch_multiple (fun u => if u = "b" then none else some "<p>x</p>")
          ["a", "b", "c"] ["c", "a", "b"]).map FetchRecord.url).Nodup) :=
  ⟨⟨by decide, by decide⟩,
    claim_C6 (fun u => if u = "b" then none else some "<p>x</p>")
      ["a", "b", "c"] ["c", "a", "b"] (by decide) (by decide)⟩

/-! ## Claim C1: deduplication invariants -/

lemma procLines_cons (l : List Char) (rest : List (List Char)) :
    procLines (l :: rest) =
      if pyStrip l = [] then procLines rest else pyStrip l :: procLines rest := by
  by_cases h : pyStrip l = [] <;> simp [procLines, List.filter_cons, h]

lemma dedupAux_filter_key (k : List Char) :
    ∀ (ls seen : List (List Char)),
      (dedupAux seen ls).filter (fun l => dedupKey l = k) =
        if k ∈ seen then []
        else ((procLines ls).filter (fun l => dedupKey l = k)).take 1 := by
  intro ls
  induction ls with
  | nil =>
    intro seen
    simp [dedupAux, procLines]
  | cons l rest ih =>
    intro seen
    rw [dedupAux, procLines_cons]
    by_cases hld : pyStrip l = []
    · rw [if_pos (List.isEmpty_iff.mpr hld), if_pos hld, ih seen]
    · rw [if_neg (by simpa using hld), if_neg hld]
      by_cases hk : dedupKey (pyStrip l) ∈ seen
      · rw [if_pos (by simpa [List.elem_iff] using hk), ih seen]
        by_cases hks : k ∈ seen
        · rw [if_pos hks, if_pos hks]
        · have hne : ¬ (dedupKey (pyStrip l) = k) := by
            intro he; exact hks (he ▸ hk)
          rw [if_neg hks, if_neg hks, List.filter_cons, if_neg (by simpa using hne)]
      · rw [if_neg (by simpa [List.elem_iff] using hk), List.filter_cons,
          List.filter_cons, ih (dedupKey (pyStrip l) :: seen)]
        by_cases hkey : dedupKey (pyStrip l) = k
        · have hks : k ∉ seen := fun hmem => hk (hkey ▸ hmem)
          have hd : decide (dedupKey (pyStrip l) = k) = true := by simpa using hkey
          rw [if_neg hks, hd,
            if_pos (show k ∈ dedupKey (pyStrip l) :: seen by
              rw [hkey]; exact List.mem_cons_self k seen)]
          simp
        · have hd : decide (dedupKey (pyStrip l) = k) = false := by simpa using hkey
          rw [hd]
          simp only [Bool.false_eq_true, if_false]
          by_cases hks : k ∈ seen
          · rw [if_pos hks, if_pos (List.mem_cons_of_mem _ hks)]
          · rw [if_neg hks, if_neg (by
              intro hm
              rcases List.mem_cons.mp hm with he | hm2
              · exact hkey he.symm
              · exact hks hm2)]

lemma dedupAux_keys :
    ∀ (ls seen : List (List Char)),
      ((dedupAux seen ls).map dedupKey).Nodup ∧
        ∀ k ∈ (dedupAux seen ls).map dedupKey, k ∉ seen := by
  intro ls
  induction ls with
  | nil => intro seen; simp [dedupAux]
  | cons l rest ih =>
    intro seen
    rw [dedupAux]
    by_cases hld : (pyStrip l).isEmpty
    · rw [if_pos hld]; exact ih seen
    · rw [if_neg hld]
      by_cases hk : seen.contains (dedupKey (pyStrip l))
      · rw [if_pos hk]; exact ih seen
      · rw [if_neg hk]
        obtain ⟨ihn, ihs⟩ := ih (dedupKey (pyStrip l) :: seen)
        rw [List.map_cons]
        refine ⟨List.Pairwise.cons ?_ ihn, ?_⟩
        · intro k hkm heq
          exact ihs k hkm (heq ▸ List.mem_cons_self _ _)
        · intro k hkm
          rcases List.mem_cons.mp hkm with rfl | hk2
          · simpa [List.elem_iff] using hk
          · exact fun hs => ihs k hk2 (List.mem_cons_of_mem _ hs)

lemma dedupAux_mem_shape :
    ∀ (ls seen : List (List Char)) (l : List Char), l ∈ dedupAux seen ls →
      ∃ p ∈ ls, l = pyStrip p ∧ l ≠ [] := by
  intro ls
  induction ls with
  | nil => intro seen l h; simp [dedupAux] at h
  | cons q rest ih =>
    intro seen l h
    rw [dedupAux] at h
    by_cases hld : (pyStrip q).isEmpty
    · rw [if_pos hld] at h
      obtain ⟨p, hp, he⟩ := ih seen l h
      exact ⟨p, List.mem_cons_of_mem _ hp, he⟩
    · rw [if_neg hld] at h
      by_cases hk : seen.contains (dedupKey (pyStrip q))
      · rw [if_pos hk] at h
        obtain ⟨p, hp, he⟩ := ih seen l h
        exact ⟨p, List.mem_cons_of_mem _ hp, he⟩
      · rw [if_neg hk] at h
        rcases List.mem_cons.mp h with rfl | h2
        · exact ⟨q, List.mem_cons_self q rest, rfl, by simpa using hld⟩
        · obtain ⟨p, hp, he⟩ := ih _ l h2
          exact ⟨p, List.mem_cons_of_mem _ hp, he⟩

/-- C1: the dedup invariant of `clean_html`.  For every input document,
the retained lines have pairwise-distinct dedup keys; for every key, the
retained lines with that key are exactly the first stripped non-empty
line with that key in document order; and the two "Contact us" lines of
the claim collapse to the first one. -/
theorem claim_C1 :
    (∀ html : String,
      clean_html html = String.mk (joinWith ['\n'] (cleanHtmlLines html)) ∧
      List.Pairwise (fun a b => dedupKey a ≠ dedupKey b) (cleanHtmlLines html) ∧
      ∀ k : List Char,
        (cleanHtmlLines html).filter (fun l => dedupKey l = k) =
          ((preDedupLines html).filter (fun l => dedupKey l = k)).take 1) ∧
    clean_html "<p>Contact us: https://a.com/x</p><p>Contact us: /y</p>" =
      "Contact us: https://a.com/x" := by
  refine ⟨?_, by decide⟩
  intro html
  refine ⟨rfl, ?_, ?_⟩
  · have h := (dedupAux_keys
      (pySplitLines (collapseSpaceTab (subBlankLines (replaceNbsp
        (joinWith ['\n'] (extractedLines html.data)))))) []).1
    have := List.pairwise_map.mp h
    simpa using this
  · intro k
    have h := dedupAux_filter_key k
      (pySplitLines (collapseSpaceTab (subBlankLines (replaceNbsp
        (joinWith ['\n'] (extractedLines html.data)))))) []
    rw [if_neg (List.not_mem_nil k)] at h
    exact h

/-! ## Claim C2: lemmas about `pyStrip` -/

lemma mem_dropWhile (p : Char → Bool) (c : Char) :
    ∀ l : List Char, c ∈ l.dropWhile p → c ∈ l := by
  intro l
  induction l with
  | nil => intro h; exact h
  | cons x t ih =>
    intro h
    rw [List.dropWhile_cons] at h
    split_ifs at h with hp
    · exact List.mem_cons_of_mem _ (ih h)
    · exact h

lemma mem_pyStrip (c : Char) (l : List Char) (h : c ∈ pyStrip l) : c ∈ l := by
  unfold pyStrip at h
  rw [List.mem_reverse] at h
  have h2 := mem_dropWhile _ _ _ h
  rw [List.mem_reverse] at h2
  exact mem_dropWhile _ _ _ h2

lemma pyStrip_part (l : List Char) : pyStrip l <:+: l := by
  unfold pyStrip
  have h1 : (l.dropWhile isPySpace).reverse.dropWhile isPySpace <:+
      (l.dropWhile isPySpace).reverse := List.dropWhile_suffix _
  have h2 : ((l.dropWhile isPySpace).reverse.dropWhile isPySpace).reverse <+:
      l.dropWhile isPySpace := by
    rw [← List.reverse_suffix]
    simpa using h1
  exact h2.isInfix.trans (List.dropWhile_suffix isPySpace).isInfix

lemma head?_dropWhile (p : Char → Bool) :
    ∀ (l : List Char) (x : Char), (l.dropWhile p).head? = some x → p x = false := by
  intro l
  induction l with
  | nil => intro x h; simp at h
  | cons c t ih =>
    intro x h
    rw [List.dropWhile_cons] at h
    split_ifs at h with hp
    · exact ih x h
    · simp at h
      rw [← h]
      simpa using hp

lemma dropWhile_eq_self_of_head (p : Char → Bool) (l : List Char)
    (h : ∀ x, l.head? = some x → p x = false) : l.dropWhile p = l := by
  cases l with
  | nil => rfl
  | cons c t =>
    rw [List.dropWhile_cons, if_neg]
    simp [h c rfl]

lemma pyStrip_head (l : List Char) (x : Char) (h : (pyStrip l).head? = some x) :
    isPySpace x = false := by
  unfold pyStrip at h
  rw [List.head?_reverse] at h
  have hne : (l.dropWhile isPySpace).reverse.dropWhile isPySpace ≠ [] := by
    intro he; rw [he] at h; simp at h
  obtain ⟨t, ht⟩ :=
    List.dropWhile_suffix (l := (l.dropWhile isPySpace).reverse) isPySpace
  have h2 : ((l.dropWhile isPySpace).reverse).getLast? = some x := by
    rw [← ht, List.getLast?_append_of_ne_nil t hne]
    exact h
  rw [List.getLast?_reverse] at h2
  exact head?_dropWhile isPySpace l x h2

lemma pyStrip_getLast (l : List Char) (x : Char)
    (h : (pyStrip l).getLast? = some x) : isPySpace x = false := by
  unfold pyStrip at h
  rw [List.getLast?_reverse] at h
  exact head?_dropWhile isPySpace _ x h

lemma pyStrip_eq_self_of (l : List Char)
    (hh : ∀ x, l.head? = some x → isPySpace x = false)
    (hl : ∀ x, l.getLast? = some x → isPySpace x = false) : pyStrip l = l := by
  unfold pyStrip
  rw [dropWhile_eq_self_of_head _ _ hh]
  rw [dropWhile_eq_self_of_head _ _ (by
    intro x hx
    rw [List.head?_reverse] at hx
    exact hl x hx)]
  exact List.reverse_reverse l

lemma pyStrip_idem (l : List Char) : pyStrip (pyStrip l) = pyStrip l :=
  pyStrip_eq_self_of _ (pyStrip_head l) (pyStrip_getLast l)

lemma pyStrip_head_of_eq (l : List Char) (heq : pyStrip l = l) (x : Char)
    (h : l.head? = some x) : isPySpace x = false :=
  pyStrip_head l x (by rw [heq]; exact h)

lemma pyStrip_getLast_of_eq (l : List Char) (heq : pyStrip l = l) (x : Char)
    (h : l.getLast? = some x) : isPySpace x = false :=
  pyStrip_getLast l x (by rw [heq]; exact h)

/-! ## Claim C2: lemmas about `pySplitLines` and `joinWith` -/

lemma pySplitLines_ne_nil (w : List Char) : pySplitLines w ≠ [] := by
  cases w with
  | nil => simp [pySplitLines]
  | cons c rest =>
    rw [pySplitLines]
    split_ifs
    · simp
    · cases pySplitLines rest <;> simp

lemma pySplitLines_no_nl (w : List Char) :
    ∀ piece ∈ pySplitLines w, '\n' ∉ piece := by
  induction w with
  | nil => intro piece hp; simp [pySplitLines] at hp; simp [hp]
  | cons c rest ih =>
    intro piece hp
    rw [pySplitLines] at hp
    split_ifs at hp with hc
    · rcases List.mem_cons.mp hp with rfl | h2
      · simp
      · exact ih piece h2
    · cases hr : pySplitLines rest with
      | nil => exact absurd hr (pySplitLines_ne_nil rest)
      | cons h t =>
        rw [hr] at hp
        rcases List.mem_cons.mp hp with rfl | h2
        · intro hm
          rcases List.mem_cons.mp hm with he | hm2
          · exact hc he.symm
          · exact ih h (by rw [hr]; exact List.mem_cons_self h t) hm2
        · exact ih piece (by rw [hr]; exact List.mem_cons_of_mem _ h2)

lemma pySplitLines_mem_sub (w : List Char) :
    ∀ piece ∈ pySplitLines w, ∀ c ∈ piece, c ∈ w := by
  induction w with
  | nil => intro piece hp; simp [pySplitLines] at hp; simp [hp]
  | cons x rest ih =>
    intro piece hp c hc
    rw [pySplitLines] at hp
    split_ifs at hp with hx
    · rcases List.mem_cons.mp hp with rfl | h2
      · exact absurd hc (List.not_mem_nil c)
      · exact List.mem_cons_of_mem _ (ih piece h2 c hc)
    · cases hr : pySplitLines rest with
      | nil => exact absurd hr (pySplitLines_ne_nil rest)
      | cons h t =>
        rw [hr] at hp
        rcases List.mem_cons.mp hp with rfl | h2
        · rcases List.mem_cons.mp hc with rfl | hc2
          · exact List.mem_cons_self c rest
          · exact List.mem_cons_of_mem _
              (ih h (by rw [hr]; exact List.mem_cons_self h t) c hc2)
        · exact List.mem_cons_of_mem _
            (ih piece (by rw [hr]; exact List.mem_cons_of_mem _ h2) c hc)

lemma pySplitLines_head_pre (w : List Char) :
    ∀ h t, pySplitLines w = h :: t → h <+: w := by
  induction w with
  | nil =>
    intro h t he
    rw [pySplitLines] at he
    rw [List.cons.injEq] at he
    rw [← he.1]
  | cons x rest ih =>
    intro h t he
    rw [pySplitLines] at he
    split_ifs at he with hx
    · rw [List.cons.injEq] at he
      rw [← he.1]
      exact List.nil_prefix
    · cases hr : pySplitLines rest with
      | nil => exact absurd hr (pySplitLines_ne_nil rest)
      | cons h2 t2 =>
        rw [hr, List.cons.injEq] at he
        rw [← he.1]
        exact List.cons_prefix_cons.mpr (And.intro rfl (ih h2 t2 hr))

lemma pySplitLines_mem_part (w : List Char) :
    ∀ piece ∈ pySplitLines w, piece <:+: w := by
  induction w with
  | nil => intro piece hp; simp [pySplitLines] at hp; simp [hp]
  | cons x rest ih =>
    intro piece hp
    rw [pySplitLines] at hp
    split_ifs at hp with hx
    · rcases List.mem_cons.mp hp with rfl | h2
      · exact List.nil_infix
      · exact List.infix_cons (ih piece h2)
    · cases hr : pySplitLines rest with
      | nil => exact absurd hr (pySplitLines_ne_nil rest)
      | cons h t =>
        rw [hr] at hp
        rcases List.mem_cons.mp hp with rfl | h2
        · exact (List.cons_prefix_cons.mpr (And.intro rfl (pySplitLines_head_pre rest h t hr))).isInfix
        · exact List.infix_cons (ih piece (by rw [hr]; exact List.mem_cons_of_mem _ h2))

lemma pySplitLines_no_nl_eq (l : List Char) (h : '\n' ∉ l) :
    pySplitLines l = [l] := by
  induction l with
  | nil => rfl
  | cons c rest ih =>
    have hc : ¬ (c = '\n') := by
      intro he; exact h (he ▸ List.mem_cons_self c rest)
    rw [pySplitLines, if_neg hc,
      ih (fun hm => h (List.mem_cons_of_mem _ hm))]

lemma pySplitLines_append_line (l : List Char) (hnl : '\n' ∉ l) (x : List Char) :
    pySplitLines (l ++ '\n' :: x) = l :: pySplitLines x := by
  induction l with
  | nil =>
    rw [List.nil_append, pySplitLines, if_pos rfl]
  | cons c t ih =>
    have hc : ¬ (c = '\n') := by
      intro he; exact hnl (he ▸ List.mem_cons_self c t)
    rw [List.cons_append, pySplitLines, if_neg hc,
      ih (fun hm => hnl (List.mem_cons_of_mem _ hm))]

lemma joinWith_cons_cons (sep l l2 : List Char) (ls : List (List Char)) :
    joinWith sep (l :: l2 :: ls) = l ++ sep ++ joinWith sep (l2 :: ls) := rfl

lemma pySplitLines_joinWith (ls : List (List Char)) (hne : ls ≠ [])
    (hnl : ∀ l ∈ ls, '\n' ∉ l) :
    pySplitLines (joinWith ['\n'] ls) = ls := by
  induction ls with
  | nil => exact absurd rfl hne
  | cons l rest ih =>
    cases rest with
    | nil => exact pySplitLines_no_nl_eq l (hnl l (List.mem_cons_self l []))
    | cons l2 rest2 =>
      rw [joinWith_cons_cons]
      rw [List.append_assoc, List.singleton_append,
        pySplitLines_append_line l (hnl l (List.mem_cons_self _ _)),
        ih (by simp) (fun p hp => hnl p (List.mem_cons_of_mem _ hp))]

lemma mem_joinWith (sep : List Char) (c : Char) :
    ∀ ls : List (List Char), c ∈ joinWith sep ls →
      c ∈ sep ∨ ∃ l ∈ ls, c ∈ l := by
  intro ls
  induction ls with
  | nil => intro h; simp [joinWith] at h
  | cons l rest ih =>
    intro h
    cases rest with
    | nil => exact Or.inr ⟨l, List.mem_cons_self l [], h⟩
    | cons l2 rest2 =>
      rw [joinWith_cons_cons] at h
      rcases List.mem_append.mp h with h1 | h2
      · rcases List.mem_append.mp h1 with ha | hb
        · exact Or.inr ⟨l, List.mem_cons_self _ _, ha⟩
        · exact Or.inl hb
      · rcases ih h2 with hs | ⟨p, hp, hc⟩
        · exact Or.inl hs
        · exact Or.inr ⟨p, List.mem_cons_of_mem _ hp, hc⟩

lemma joinWith_head (sep l : List Char) (ls : List (List Char)) (hl : l ≠ []) :
    (joinWith sep (l :: ls)).head? = l.head? := by
  cases ls with
  | nil => rfl
  | cons l2 rest =>
    rw [joinWith_cons_cons]
    cases l with
    | nil => exact absurd rfl hl
    | cons c t => rfl

/-! ## Claim C2: lemmas about the whitespace normalization steps -/

lemma replaceNbsp_not_mem (l : List Char) : Char.ofNat 160 ∉ replaceNbsp l := by
  intro h
  obtain ⟨c, -, hc⟩ := List.mem_map.mp h
  by_cases he : c = Char.ofNat 160
  · rw [if_pos he] at hc
    exact absurd hc (by decide)
  · rw [if_neg he] at hc
    exact he hc

lemma mem_replaceNbsp (c : Char) (l : List Char) (h : c ∈ replaceNbsp l) :
    c ∈ l ∨ c = ' ' := by
  obtain ⟨x, hx, hc⟩ := List.mem_map.mp h
  by_cases he : x = Char.ofNat 160
  · right; rw [if_pos he] at hc; exact hc.symm
  · left; rw [if_neg he] at hc; exact hc ▸ hx

lemma replaceNbsp_eq_self (l : List Char) (h : Char.ofNat 160 ∉ l) :
    replaceNbsp l = l := by
  induction l with
  | nil => rfl
  | cons c rest ih =>
    rw [replaceNbsp, List.map_cons,
      if_neg (fun he => h (by rw [← he]; exact List.mem_cons_self c rest))]
    have := ih (fun hm => h (List.mem_cons_of_mem _ hm))
    rw [replaceNbsp] at this
    rw [this]

lemma mem_squeezeRun (c : Char) (r : List Char) (h : c ∈ squeezeRun r) : c ∈ r := by
  rw [squeezeRun] at h
  split_ifs at h with hc
  · rcases List.mem_append.mp h with h1 | h2
    · exact (List.takeWhile_prefix _).sublist.mem h1
    · rcases List.mem_cons.mp h2 with rfl | h3
      · exact List.count_pos_iff.mp (by omega)
      · rw [List.mem_reverse] at h3
        have h4 := (List.takeWhile_prefix
          (l := r.reverse) (fun x => decide ¬(x = '\n'))).sublist.mem h3
        rwa [List.mem_reverse] at h4
  · exact h

lemma squeezeRun_eq_self (r : List Char) (h : r.count '\n' ≤ 1) :
    squeezeRun r = r := by
  rw [squeezeRun, if_neg]
  omega

/-- The no-blank-pair invariant: any two newlines have a non-whitespace
character strictly between them. -/
def okBlank (x : List Char) : Prop :=
  ∀ pre mid post, x = pre ++ '\n' :: (mid ++ '\n' :: post) →
    ∃ c ∈ mid, isPySpace c = false

lemma okBlank_append_left (a b : List Char) (h : okBlank (a ++ b)) : okBlank b := by
  intro pre mid post he
  exact h (a ++ pre) mid post (by rw [he, List.append_assoc])

lemma count_two_split (w : List Char) (h : 2 ≤ w.count '\n') :
    ∃ a m d, w = a ++ '\n' :: (m ++ '\n' :: d) := by
  induction w with
  | nil => simp at h
  | cons c rest ih =>
    by_cases hc : c = '\n'
    · subst hc
      have h1 : 1 ≤ rest.count '\n' := by
        rw [List.count_cons_self] at h
        omega
      have hm : '\n' ∈ rest := List.count_pos_iff.mp (by omega)
      obtain ⟨m, d, hmd⟩ := List.append_of_mem hm
      exact ⟨[], m, d, by rw [hmd]; rfl⟩
    · have h2 : 2 ≤ rest.count '\n' := by
        rw [List.count_cons_of_ne (Ne.symm hc)] at h
        exact h
      obtain ⟨a, m, d, hw⟩ := ih h2
      exact ⟨c :: a, m, d, by rw [hw]; rfl⟩

lemma count_le_one_of_okBlank (run y : List Char)
    (hws : ∀ c ∈ run, isPySpace c = true) (hok : okBlank (run ++ y)) :
    run.count '\n' ≤ 1 := by
  by_contra hge
  obtain ⟨a, m, d, hw⟩ := count_two_split run (by omega)
  obtain ⟨c, hcm, hcs⟩ := hok a m (d ++ y)
    (by rw [hw]; simp [List.append_assoc])
  have : isPySpace c = true := hws c (by
    rw [hw]
    refine List.mem_append.mpr (Or.inr ?_)
    exact List.mem_cons_of_mem _ (List.mem_append.mpr (Or.inl hcm)))
  rw [this] at hcs
  exact absurd hcs (by simp)

lemma subBlankAcc_eq (x : List Char) :
    ∀ run : List Char, (∀ c ∈ run, isPySpace c = true) →
      okBlank (run.reverse ++ x) → subBlankAcc run x = run.reverse ++ x := by
  induction x with
  | nil =>
    intro run hws hok
    rw [subBlankAcc, squeezeRun_eq_self]
    · rw [List.append_nil]
    · exact count_le_one_of_okBlank run.reverse []
        (fun c hc => hws c (List.mem_reverse.mp hc)) hok
  | cons c rest ih =>
    intro run hws hok
    rw [subBlankAcc]
    by_cases hc : isPySpace c
    · rw [if_pos hc]
      rw [ih (c :: run)
        (by
          intro z hz
          rcases List.mem_cons.mp hz with rfl | hz2
          · exact hc
          · exact hws z hz2)
        (by
          rw [List.reverse_cons, List.append_assoc]
          simpa using hok)]
      rw [List.reverse_cons, List.append_assoc]
      simp
    · rw [if_neg hc]
      rw [squeezeRun_eq_self _
        (count_le_one_of_okBlank run.reverse (c :: rest)
          (fun z hz => hws z (List.mem_reverse.mp hz)) hok)]
      rw [ih [] (by simp) (by
        have := okBlank_append_left (run.reverse ++ [c]) rest
        refine this ?_
        rw [List.append_assoc]
        simpa using hok)]
      simp

lemma okBlank_of_no_nl (x : List Char) (h : '\n' ∉ x) : okBlank x := by
  intro pre mid post he
  exfalso
  refine h ?_
  rw [he]
  exact List.mem_append.mpr (Or.inr (List.mem_cons_self _ _))

lemma append_nl_eq (l : List Char) (hnl : '\n' ∉ l) (J pre tail1 : List Char)
    (h : l ++ '\n' :: J = pre ++ '\n' :: tail1) :
    (pre = l ∧ tail1 = J) ∨
      ∃ pre2, pre = l ++ '\n' :: pre2 ∧ J = pre2 ++ '\n' :: tail1 := by
  rcases List.append_eq_append_iff.mp h with ⟨a', hpre, hj⟩ | ⟨c', hl, hd⟩
  · cases a' with
    | nil =>
      left
      rw [List.append_nil] at hpre
      rw [List.nil_append] at hj
      exact ⟨hpre, (List.cons_eq_cons.mp hj).2.symm⟩
    | cons y a'' =>
      right
      rw [List.cons_append] at hj
      obtain ⟨hy, hJ⟩ := List.cons_eq_cons.mp hj
      refine ⟨a'', ?_, hJ⟩
      rw [hpre, ← hy]
  · cases c' with
    | nil =>
      left
      rw [List.append_nil] at hl
      rw [List.nil_append] at hd
      exact ⟨hl.symm, (List.cons_eq_cons.mp hd).2⟩
    | cons y c'' =>
      exfalso
      rw [List.cons_append] at hd
      obtain ⟨hy, -⟩ := List.cons_eq_cons.mp hd
      refine hnl ?_
      rw [hl, ← hy]
      exact List.mem_append.mpr (Or.inr (List.mem_cons_self _ _))

lemma okBlank_line_append (l J : List Char) (hnl : '\n' ∉ l) (hok : okBlank J)
    (hhead : ∀ x, J.head? = some x → isPySpace x = false) :
    okBlank (l ++ '\n' :: J) := by
  intro pre mid post he
  rcases append_nl_eq l hnl J pre (mid ++ '\n' :: post) he with ⟨-, hJ⟩ | ⟨p2, -, hJ⟩
  · cases mid with
    | nil =>
      exfalso
      have : J.head? = some '\n' := by rw [← hJ]; rfl
      have := hhead '\n' this
      simp [isPySpace] at this
    | cons m0 mrest =>
      refine ⟨m0, List.mem_cons_self _ _, ?_⟩
      have : J.head? = some m0 := by rw [← hJ]; rfl
      exact hhead m0 this
  · exact hok p2 mid post hJ

lemma okBlank_joinWith (ls : List (List Char))
    (hl : ∀ l ∈ ls, l ≠ [] ∧ '\n' ∉ l ∧
      (∀ x, l.head? = some x → isPySpace x = false)) :
    okBlank (joinWith ['\n'] ls) := by
  induction ls with
  | nil => exact okBlank_of_no_nl [] (by simp)
  | cons l rest ih =>
    cases rest with
    | nil => exact okBlank_of_no_nl l (hl l (List.mem_cons_self _ _)).2.1
    | cons l2 rest2 =>
      rw [joinWith_cons_cons, List.append_assoc, List.singleton_append]
      refine okBlank_line_append l _ (hl l (List.mem_cons_self _ _)).2.1
        (ih (fun p hp => hl p (List.mem_cons_of_mem _ hp))) ?_
      intro x hx
      rw [joinWith_head _ l2 rest2
        (hl l2 (List.mem_cons_of_mem _ (List.mem_cons_self _ _))).1] at hx
      exact (hl l2 (List.mem_cons_of_mem _ (List.mem_cons_self _ _))).2.2 x hx

lemma mem_subBlankAcc (c : Char) :
    ∀ (x run : List Char), c ∈ subBlankAcc run x → c ∈ run ∨ c ∈ x := by
  intro x
  induction x with
  | nil =>
    intro run h
    rw [subBlankAcc] at h
    left
    have := mem_squeezeRun c _ h
    rwa [List.mem_reverse] at this
  | cons z rest ih =>
    intro run h
    rw [subBlankAcc] at h
    split_ifs at h with hz
    · rcases ih (z :: run) h with h1 | h2
      · rcases List.mem_cons.mp h1 with rfl | h3
        · right; exact List.mem_cons_self _ _
        · left; exact h3
      · right; exact List.mem_cons_of_mem _ h2
    · rcases List.mem_append.mp h with h1 | h2
      · left
        have := mem_squeezeRun c _ h1
        rwa [List.mem_reverse] at this
      · rcases List.mem_cons.mp h2 with rfl | h3
        · right; exact List.mem_cons_self _ _
        · rcases ih [] h3 with h4 | h5
          · exact absurd h4 (List.not_mem_nil c)
          · right; exact List.mem_cons_of_mem _ h5

/-! ## Claim C2: lemmas about `collapseSpaceTab` -/

/-- Two adjacent plain spaces somewhere in the list. -/
def adjSp : List Char → Bool
  | a :: b :: t => (a = ' ' && b = ' ') || adjSp (b :: t)
  | _ => false

lemma adjSp_nil : adjSp [] = false := rfl

lemma adjSp_one (x : Char) : adjSp [x] = false := rfl

lemma adjSp_cons_cons (x y : Char) (t : List Char) :
    adjSp (x :: y :: t) = ((x = ' ' && y = ' ') || adjSp (y :: t)) := rfl

lemma adjSp_tail (x : Char) (l : List Char) (h : adjSp (x :: l) = false) :
    adjSp l = false := by
  cases l with
  | nil => rfl
  | cons y t =>
    rw [adjSp_cons_cons, Bool.or_eq_false_iff] at h
    exact h.2

lemma adjSp_cons_not_space (x : Char) (hx : ¬ (x = ' ')) (l : List Char) :
    adjSp (x :: l) = adjSp l := by
  cases l with
  | nil => rfl
  | cons y t =>
    rw [adjSp_cons_cons]
    simp [hx]

lemma adjSp_iff_exists (l : List Char) :
    adjSp l = true ↔ ∃ a b, l = a ++ ' ' :: ' ' :: b := by
  induction l with
  | nil =>
    simp only [adjSp_nil, Bool.false_eq_true, false_iff]
    rintro ⟨a, b, hab⟩
    cases a <;> simp at hab
  | cons x t ih =>
    cases t with
    | nil =>
      simp only [adjSp_one, Bool.false_eq_true, false_iff]
      rintro ⟨a, b, hab⟩
      cases a with
      | nil => simp at hab
      | cons a0 a' => cases a' <;> simp at hab
    | cons y t2 =>
      rw [adjSp_cons_cons]
      constructor
      · intro h
        rcases Bool.or_eq_true_iff.mp h with h1 | h2
        · obtain ⟨hx, hy⟩ := Bool.and_eq_true_iff.mp h1
          refine ⟨[], t2, ?_⟩
          simp only [decide_eq_true_eq] at hx hy
          rw [hx, hy]
          rfl
        · obtain ⟨a, b, hab⟩ := ih.mp h2
          exact ⟨x :: a, b, by rw [List.cons_append, hab]⟩
      · rintro ⟨a, b, hab⟩
        cases a with
        | nil =>
          rw [List.nil_append] at hab
          obtain ⟨hx, hrest⟩ := List.cons_eq_cons.mp hab
          obtain ⟨hy, -⟩ := List.cons_eq_cons.mp hrest
          rw [hx, hy]
          simp
        | cons a0 a' =>
          rw [List.cons_append] at hab
          obtain ⟨-, hrest⟩ := List.cons_eq_cons.mp hab
          refine Bool.or_eq_true_iff.mpr (Or.inr (ih.mpr ⟨a', b, hrest⟩))

lemma adjSp_of_part (l w : List Char) (hinf : l <:+: w) (hw : adjSp w = false) :
    adjSp l = false := by
  by_contra hne
  have hl : adjSp l = true := by
    cases h : adjSp l
    · exact absurd h hne
    · rfl
  obtain ⟨a, b, hab⟩ := (adjSp_iff_exists l).mp hl
  obtain ⟨s, t, hst⟩ := hinf
  have : adjSp w = true := by
    refine (adjSp_iff_exists w).mpr ⟨s ++ a, b ++ t, ?_⟩
    rw [← hst, hab]
    simp
  rw [this] at hw
  exact absurd hw (by simp)

lemma collapseST_aux_out : ∀ (l : List Char) (b : Bool),
    '\t' ∉ collapseRunsAux isSpaceTab b l ∧
    adjSp (collapseRunsAux isSpaceTab b l) = false ∧
    (b = true → (collapseRunsAux isSpaceTab b l).head? ≠ some ' ') := by
  intro l
  induction l with
  | nil =>
    intro b
    refine ⟨by simp [collapseRunsAux], rfl, ?_⟩
    intro _
    simp [collapseRunsAux]
  | cons c rest ih =>
    intro b
    by_cases hc : isSpaceTab c = true
    · cases b with
      | true =>
        rw [collapseRunsAux, if_pos hc, if_pos rfl]
        exact ih true
      | false =>
        rw [collapseRunsAux, if_pos hc]
        simp only [Bool.false_eq_true, if_false]
        obtain ⟨iht, iha, ihh⟩ := ih true
        refine ⟨?_, ?_, ?_⟩
        · intro hm
          rcases List.mem_cons.mp hm with he | hm2
          · exact absurd he (by decide)
          · exact iht hm2
        · cases ho : collapseRunsAux isSpaceTab true rest with
          | nil => rfl
          | cons z t =>
            rw [adjSp_cons_cons]
            refine Bool.or_eq_false_iff.mpr ⟨?_, by rw [← ho]; exact iha⟩
            have hz : ¬ (z = ' ') := by
              intro he
              refine ihh rfl ?_
              rw [ho, he]
              rfl
            simp [hz]
        · intro hb
          exact absurd hb (by simp)
    · rw [collapseRunsAux, if_neg hc]
      obtain ⟨iht, iha, -⟩ := ih false
      have hcs : ¬ (c = ' ') := by
        intro he; rw [he] at hc; exact hc (by decide)
      have hct : ¬ (c = '\t') := by
        intro he; rw [he] at hc; exact hc (by decide)
      refine ⟨?_, ?_, ?_⟩
      · intro hm
        rcases List.mem_cons.mp hm with he | hm2
        · exact hct he.symm
        · exact iht hm2
      · rw [adjSp_cons_not_space c hcs]
        exact iha
      · intro _
        intro he
        simp only [List.head?_cons, Option.some.injEq] at he
        exact hcs he

lemma collapseST_aux_id : ∀ (l : List Char) (b : Bool),
    '\t' ∉ l → adjSp l = false → (b = true → l.head? ≠ some ' ') →
    collapseRunsAux isSpaceTab b l = l := by
  intro l
  induction l with
  | nil => intro b _ _ _; rfl
  | cons c rest ih =>
    intro b htab hadj hhead
    by_cases hc : isSpaceTab c = true
    · have hcs : c = ' ' := by
        rcases Bool.or_eq_true_iff.mp hc with h1 | h2
        · simpa using h1
        · exfalso
          refine htab ?_
          have : c = '\t' := by simpa using h2
          rw [this]
          exact List.mem_cons_self _ _
      have hb : b = false := by
        cases b with
        | false => rfl
        | true =>
          exfalso
          refine hhead rfl ?_
          rw [hcs]
          rfl
      subst hb
      rw [collapseRunsAux, if_pos hc]
      simp only [Bool.false_eq_true, if_false]
      rw [hcs]
      have hrest : collapseRunsAux isSpaceTab true rest = rest := by
        refine ih true (fun hm => htab (List.mem_cons_of_mem _ hm))
          (adjSp_tail c rest hadj) ?_
        intro _ hh
        cases rest with
        | nil => simp at hh
        | cons z t =>
          simp only [List.head?_cons, Option.some.injEq] at hh
          rw [hcs, hh] at hadj
          rw [adjSp_cons_cons] at hadj
          simp at hadj
      rw [hrest]
    · rw [collapseRunsAux, if_neg hc]
      rw [ih false (fun hm => htab (List.mem_cons_of_mem _ hm))
        (adjSp_tail c rest hadj) (by intro h; exact absurd h (by simp))]

lemma mem_collapseRunsAux (p : Char → Bool) (c : Char) :
    ∀ (l : List Char) (b : Bool), c ∈ collapseRunsAux p b l → c ∈ l ∨ c = ' ' := by
  intro l
  induction l with
  | nil => intro b h; simp [collapseRunsAux] at h
  | cons z rest ih =>
    intro b h
    rw [collapseRunsAux] at h
    split_ifs at h with h1 h2
    · rcases ih true h with hm | hs
      · exact Or.inl (List.mem_cons_of_mem _ hm)
      · exact Or.inr hs
    · rcases List.mem_cons.mp h with rfl | hm
      · exact Or.inr rfl
      · rcases ih true hm with hm2 | hs
        · exact Or.inl (List.mem_cons_of_mem _ hm2)
        · exact Or.inr hs
    · rcases List.mem_cons.mp h with rfl | hm
      · exact Or.inl (List.mem_cons_self _ _)
      · rcases ih false hm with hm2 | hs
        · exact Or.inl (List.mem_cons_of_mem _ hm2)
        · exact Or.inr hs

lemma adjSp_append_nl (l j : List Char) (hl : adjSp l = false)
    (hj : adjSp j = false) : adjSp (l ++ '\n' :: j) = false := by
  induction l with
  | nil =>
    rw [List.nil_append, adjSp_cons_not_space '\n' (by decide)]
    exact hj
  | cons c l' ih =>
    cases l' with
    | nil =>
      rw [List.cons_append, List.nil_append, adjSp_cons_cons]
      refine Bool.or_eq_false_iff.mpr ⟨by simp, ?_⟩
      rw [adjSp_cons_not_space '\n' (by decide)]
      exact hj
    | cons d l'' =>
      rw [List.cons_append, List.cons_append, adjSp_cons_cons]
      refine Bool.or_eq_false_iff.mpr ⟨?_, ?_⟩
      · rw [adjSp_cons_cons] at hl
        exact (Bool.or_eq_false_iff.mp hl).1
      · have := ih (adjSp_tail c _ hl)
        rw [List.cons_append] at this
        exact this

lemma adjSp_joinWith (ls : List (List Char))
    (h : ∀ l ∈ ls, adjSp l = false) : adjSp (joinWith ['\n'] ls) = false := by
  induction ls with
  | nil => rfl
  | cons l rest ih =>
    cases rest with
    | nil => exact h l (List.mem_cons_self _ _)
    | cons l2 rest2 =>
      rw [joinWith_cons_cons, List.append_assoc, List.singleton_append]
      exact adjSp_append_nl l _ (h l (List.mem_cons_self _ _))
        (ih (fun p hp => h p (List.mem_cons_of_mem _ hp)))

/-! ## Claim C2: idempotence of the normalization and dedup stage -/

lemma dedupAux_eq_self : ∀ (ls seen : List (List Char)),
    (∀ l ∈ ls, pyStrip l = l ∧ l ≠ []) →
    (ls.map dedupKey).Nodup →
    (∀ l ∈ ls, dedupKey l ∉ seen) →
    dedupAux seen ls = ls := by
  intro ls
  induction ls with
  | nil => intro seen _ _ _; rfl
  | cons l rest ih =>
    intro seen hshape hkeys hseen
    obtain ⟨hstrip, hne⟩ := hshape l (List.mem_cons_self _ _)
    rw [dedupAux, hstrip, if_neg (by simpa using hne),
      if_neg (by
        simp only [List.elem_iff]
        exact hseen l (List.mem_cons_self _ _))]
    rw [ih (dedupKey l :: seen)
      (fun p hp => hshape p (List.mem_cons_of_mem _ hp))
      (by
        rw [List.map_cons] at hkeys
        exact hkeys.tail)
      (by
        intro p hp hmem
        rcases List.mem_cons.mp hmem with he | hmem2
        · rw [List.map_cons] at hkeys
          exact (List.nodup_cons.mp hkeys).1 (he ▸ List.mem_map_of_mem dedupKey hp)
        · exact hseen p (List.mem_cons_of_mem _ hp) hmem2)]

/-- The normal form preserved by the normalization + dedup stage: each
line is non-empty, stripped, free of newlines, NBSPs and tab or
double-space runs. -/
def normalLine (l : List Char) : Prop :=
  l ≠ [] ∧ pyStrip l = l ∧ '\n' ∉ l ∧ Char.ofNat 160 ∉ l ∧ collapseSpaceTab l = l

lemma postprocess_id (ls : List (List Char)) (hne : ls ≠ [])
    (hl : ∀ l ∈ ls, normalLine l) (hkeys : (ls.map dedupKey).Nodup) :
    postprocessChars (joinWith ['\n'] ls) = joinWith ['\n'] ls := by
  have h160 : Char.ofNat 160 ∉ joinWith ['\n'] ls := by
    intro hm
    rcases mem_joinWith _ _ _ hm with hs | ⟨l, hls, hc⟩
    · exact absurd hs (by decide)
    · exact (hl l hls).2.2.2.1 hc
  have hrepl : replaceNbsp (joinWith ['\n'] ls) = joinWith ['\n'] ls :=
    replaceNbsp_eq_self _ h160
  have hoks : okBlank (joinWith ['\n'] ls) :=
    okBlank_joinWith ls (fun l hls =>
      ⟨(hl l hls).1, (hl l hls).2.2.1,
        fun x hx => pyStrip_head_of_eq l (hl l hls).2.1 x hx⟩)
  have hsub : subBlankLines (joinWith ['\n'] ls) = joinWith ['\n'] ls := by
    rw [subBlankLines]
    have := subBlankAcc_eq (joinWith ['\n'] ls) [] (by simp) (by simpa using hoks)
    simpa using this
  have htab : '\t' ∉ joinWith ['\n'] ls := by
    intro hm
    rcases mem_joinWith _ _ _ hm with hs | ⟨l, hls, hc⟩
    · exact absurd hs (by decide)
    · have hout := (collapseST_aux_out l false).1
      have hcoll := (hl l hls).2.2.2.2
      rw [collapseSpaceTab] at hcoll
      rw [hcoll] at hout
      exact hout hc
  have hadj : adjSp (joinWith ['\n'] ls) = false := by
    refine adjSp_joinWith ls ?_
    intro l hls
    have hout := (collapseST_aux_out l false).2.1
    have hcoll := (hl l hls).2.2.2.2
    rw [collapseSpaceTab] at hcoll
    rw [hcoll] at hout
    exact hout
  have hcoll : collapseSpaceTab (joinWith ['\n'] ls) = joinWith ['\n'] ls := by
    rw [collapseSpaceTab]
    exact collapseST_aux_id _ false htab hadj (by intro h; exact absurd h (by simp))
  rw [postprocessChars, postLines, hrepl, hsub, hcoll,
    pySplitLines_joinWith ls hne (fun l hls => (hl l hls).2.2.1),
    dedupAux_eq_self ls [] (fun l hls => ⟨(hl l hls).2.1, (hl l hls).1⟩) hkeys
      (by intro l _ hm; exact absurd hm (List.not_mem_nil _))]

lemma postLines_normal (x : List Char) :
    (∀ l ∈ postLines x, normalLine l) ∧ ((postLines x).map dedupKey).Nodup := by
  constructor
  · intro l hl
    rw [postLines] at hl
    obtain ⟨piece, hpiece, hshape, hlne⟩ := dedupAux_mem_shape _ [] l hl
    have h160y : Char.ofNat 160 ∉
        collapseSpaceTab (subBlankLines (replaceNbsp x)) := by
      intro hm
      rcases mem_collapseRunsAux isSpaceTab _ _ _ hm with hm2 | hs
      · rw [subBlankLines] at hm2
        rcases mem_subBlankAcc _ _ _ hm2 with h3 | h4
        · exact absurd h3 (List.not_mem_nil _)
        · exact replaceNbsp_not_mem x h4
      · exact absurd hs (by decide)
    refine ⟨hlne, by rw [hshape]; exact pyStrip_idem piece, ?_, ?_, ?_⟩
    · intro hm
      rw [hshape] at hm
      exact pySplitLines_no_nl _ piece hpiece (mem_pyStrip _ _ hm)
    · intro hm
      rw [hshape] at hm
      exact h160y (pySplitLines_mem_sub _ piece hpiece _ (mem_pyStrip _ _ hm))
    · have hinf : l <:+:
          collapseSpaceTab (subBlankLines (replaceNbsp x)) := by
        rw [hshape]
        exact (pyStrip_part piece).trans (pySplitLines_mem_part _ piece hpiece)
      have htab : '\t' ∉ l := by
        intro hm
        have hy := (collapseST_aux_out (subBlankLines (replaceNbsp x)) false).1
        refine hy ?_
        obtain ⟨s, t, hst⟩ := hinf
        rw [collapseSpaceTab] at *
        rw [← hst]
        exact List.mem_append.mpr
          (Or.inl (List.mem_append.mpr (Or.inr hm)))
      have hadj : adjSp l = false := by
        refine adjSp_of_part l _ hinf ?_
        have := (collapseST_aux_out (subBlankLines (replaceNbsp x)) false).2.1
        rw [collapseSpaceTab]
        exact this
      rw [collapseSpaceTab]
      exact collapseST_aux_id l false htab hadj (by intro h; exact absurd h (by simp))
  · exact (dedupAux_keys _ []).1

/-- C2 (amended): the whitespace-normalization + deduplication stage
(steps 5 and 6 of `clean_html`) is idempotent, and it returns unchanged
any text whose lines are already normalized with pairwise-distinct dedup
keys.  The full `clean_html` is not idempotent (see the counterexample):
its second run re-parses plain text, finds no content tags, and returns
the empty string. -/
theorem claim_C2 :
    (∀ s : String, postprocessStage (postprocessStage s) = postprocessStage s) ∧
    (∀ ls : List (List Char), ls ≠ [] → (∀ l ∈ ls, normalLine l) →
      (ls.map dedupKey).Nodup →
      postprocessChars (joinWith ['\n'] ls) = joinWith ['\n'] ls) := by
  constructor
  · intro s
    have hchars : postprocessChars (postprocessChars s.data) =
        postprocessChars s.data := by
      have h1 : postprocessChars s.data = joinWith ['\n'] (postLines s.data) := rfl
      cases hout : postLines s.data with
      | nil =>
        rw [h1, hout]
        rfl
      | cons l rest =>
        rw [h1, hout]
        rw [postprocess_id (l :: rest) (by simp)
          (by rw [← hout]; exact (postLines_normal s.data).1)
          (by rw [← hout]; exact (postLines_normal s.data).2)]
    show String.mk (postprocessChars (String.mk (postprocessChars s.data)).data) =
      String.mk (postprocessChars s.data)
    have hdata : (String.mk (postprocessChars s.data)).data =
        postprocessChars s.data := rfl
    rw [hdata, hchars]
  · exact fun ls hne hl hkeys => postprocess_id ls hne hl hkeys

/-- Witness for C2 instantiating the unchanged-input part. -/
theorem claim_C2_witness :
    ((["ab".data, "cd: x".data] : List (List Char)) ≠ [] ∧
      (∀ l ∈ [("ab".data : List Char), "cd: x".data], normalLine l) ∧
      ([("ab".data : List Char), "cd: x".data].map dedupKey).Nodup) ∧
    postprocessChars (joinWith ['\n'] [("ab".data : List Char), "cd: x".data]) =
      joinWith ['\n'] [("ab".data : List Char), "cd: x".data] :=
  ⟨⟨by simp, by
      intro l hl
      rcases List.mem_cons.mp hl with rfl | hl2
      · exact ⟨by decide, by decide, by decide, by decide, by decide⟩
      rcases List.mem_cons.mp hl2 with rfl | hl3
      · exact ⟨by decide, by decide, by decide, by decide, by decide⟩
      · exact absurd hl3 (List.not_mem_nil l), by decide⟩,
    claim_C2.2 [("ab".data : List Char), "cd: x".data] (by simp)
      (by
        intro l hl
        rcases List.mem_cons.mp hl with rfl | hl2
        · exact ⟨by decide, by decide, by decide, by decide, by decide⟩
        rcases List.mem_cons.mp hl2 with rfl | hl3
        · exact ⟨by decide, by decide, by decide, by decide, by decide⟩
        · exact absurd hl3 (List.not_mem_nil l))
      (by decide)⟩

/-- Counterexample to C2 as stated: `clean_html` is not idempotent.  Its
output on `<p>Hello world</p>` is the plain text `Hello world`, and a
second run parses that text, finds no content elements, and returns the
empty string. -/
theorem claim_C2_counterexample :
    clean_html "<p>Hello world</p>" = "Hello world" ∧
    clean_html (clean_html "<p>Hello world</p>") = "" ∧
    clean_html (clean_html "<p>Hello world</p>") ≠
      clean_html "<p>Hello world</p>" := by
  refine ⟨by decide, by decide, by decide⟩

end Scrapper
